import Mathlib

/-!
Shallow embedding of `src/pathfinding.rs` (crate `pathfinding`, 2014-era Rust).

Conventions of the embedding:
* `uint` is modelled as `Nat` (all machine values in the program are small
  counters and accumulated costs; no arithmetic in the source can overflow
  `uint` on any input considered here, and `uint` weights are non-negative
  by construction).
* `std::collections::HashMap<K, V>` is modelled as a function `K → Option V`
  (lookup = application, `insert` / `insert_or_update_with` = pointwise
  update).  The maps in the source are never iterated, so the model loses
  nothing observable.
* `std::collections::HashSet<T>` is modelled as a `List T` used only through
  membership and insertion.
* `std::collections::DList<T>` is used by `breadth_first_search` only through
  `push` / `pop`, which act on the back of the deque, i.e. as a LIFO stack.
  It is modelled as a `List T` whose head is the top of the stack.
* `std::collections::PriorityQueue<T>` (a binary max-heap) is modelled as a
  `List T` of its entries; `push` conses, `pop` removes the first entry that
  is greatest in the element order.  For `MinPriorityNode`, whose order
  compares only `cost` (inverted), this is the first entry of minimal cost.
  The std heap's choice among entries that compare equal is an internal
  implementation detail; this model fixes one deterministic choice.
* The two search functions print their progress with `println!` and return
  `()`.  The embedding records, as state, the exact information printed:
  `order` is the list of nodes reported by `println!("    Visiting: {}", …)`
  in print order, and `goalReached` records whether
  `println!("    Goal reached.")` executed.  `printedOf…` renders that state
  back into the literal stdout lines, so the caller-observable behaviour of
  the Rust function is exactly `printedOf… (run)`.
* The `while` / `loop` constructs are modelled with explicit fuel: the loop
  functions return `none` when the fuel is exhausted before the loop exits,
  and `some finalState` when the loop exits on its own.
-/

namespace Pathfinding

variable {T : Type}

/-- Pointwise update of a `HashMap` model: `HashMap::insert` and
`HashMap::insert_or_update_with` both leave the map with `key ↦ value`. -/
def upd [DecidableEq T] {V : Type} (m : T → Option V) (k : T) (v : V) : T → Option V :=
  fun x => if x = k then some v else m x

/-- `HashMap::get`, which in the source fails on an absent key.  The embedding
totalises it with default `0`; every use in the source is at a key that is
provably present (`dijkstra_current_recorded` below), so the default is never
observable. -/
def mapGet (m : T → Option Nat) (k : T) : Nat :=
  (m k).getD 0

/-! ## The graph abstraction (`mod graph`)

`trait WeightedGraph` gives, for a node, an iterator of `(uint, &T)` pairs.
The embedding models the capability by the list of pairs the iterator
yields, in yield order. -/

structure WeightedGraph (T : Type) where
  neighbours : T → List (Nat × T)

/-- `struct SimpleGraph<T> { edges: HashMap<T, Vec<T>> }` -/
structure SimpleGraph (T : Type) where
  edges : T → Option (List T)

/-- `struct Neighbours<'a, T> { nodes: Vec<(uint, &'a T)> }` -/
structure Neighbours (T : Type) where
  nodes : List (Nat × T)

/-- `impl Iterator for Neighbours`: `next()` is `self.nodes.pop()`, which
removes and returns the **last** element of the vector. -/
def Neighbours.next : Neighbours T → Option ((Nat × T) × Neighbours T)
  | ⟨[]⟩ => none
  | ⟨x :: xs⟩ => some ((x :: xs).getLast (by simp), ⟨(x :: xs).dropLast⟩)

/-- The full sequence of items the `Neighbours` iterator yields, in yield
order (repeated `next` until `None`). -/
def Neighbours.toList (it : Neighbours T) : List (Nat × T) :=
  match h : it.next with
  | none => []
  | some (x, it') => x :: it'.toList
termination_by it.nodes.length
decreasing_by
  cases it with
  | mk l =>
    cases l with
    | nil => simp [Neighbours.next] at h
    | cons a as =>
      simp [Neighbours.next] at h
      obtain ⟨-, h2⟩ := h
      simp [← h2, List.length_dropLast]

/-- `SimpleGraph::neighbours`: look the node up in `edges`; if present, build
the iterator from `vec.iter().map(|v| (1u, v))`, otherwise from an empty
vector. -/
def SimpleGraph.neighbours [DecidableEq T] (g : SimpleGraph T) (node : T) : Neighbours T :=
  match g.edges node with
  | some vec => ⟨vec.map (fun v => (1, v))⟩
  | none => ⟨[]⟩

/-- The `WeightedGraph` capability of a `SimpleGraph` (the trait impl),
described by the sequence its `Neighbours` iterator yields. -/
def SimpleGraph.toWeightedGraph [DecidableEq T] (g : SimpleGraph T) : WeightedGraph T :=
  ⟨fun node => (g.neighbours node).toList⟩

/-! ## `mod priority`: the min-priority adapter -/

/-- `struct MinPriorityNode<'a, T> { node: T, cost: uint }` -/
structure MinPriorityNode (T : Type) where
  node : T
  cost : Nat
deriving DecidableEq

/-- The derived `PartialEq`/`Eq` of `MinPriorityNode`
(`#[deriving(Eq, PartialEq)]`): structural, field-by-field equality. -/
def mpnBeq [DecidableEq T] (a b : MinPriorityNode T) : Bool :=
  a.node = b.node ∧ a.cost = b.cost

/-- The hand-written `Ord for MinPriorityNode`:
`fn cmp(&self, other) -> Ordering { other.cost.cmp(&self.cost) }`. -/
def mpnCmp (a b : MinPriorityNode T) : Ordering :=
  compare b.cost a.cost

/-! ## `PriorityQueue` model

`pop` on the std max-heap returns a greatest element; under `mpnCmp` a
greatest element is one of minimal `cost`.  `pqRemoveMin best rest` scans the
remaining entries keeping the first entry of strictly smaller cost, so
`pqPop` removes the first entry of minimal cost and keeps the others in
order. -/

def pqRemoveMin : MinPriorityNode T → List (MinPriorityNode T) →
    MinPriorityNode T × List (MinPriorityNode T)
  | b, [] => (b, [])
  | b, x :: xs =>
    if x.cost < b.cost then
      let r := pqRemoveMin x xs
      (r.1, b :: r.2)
    else
      let r := pqRemoveMin b xs
      (r.1, x :: r.2)

def pqPop : List (MinPriorityNode T) → Option (MinPriorityNode T × List (MinPriorityNode T))
  | [] => none
  | x :: xs => some (pqRemoveMin x xs)

def pqPush (e : MinPriorityNode T) (f : List (MinPriorityNode T)) :
    List (MinPriorityNode T) :=
  e :: f

/-! ## `breadth_first_search` -/

/-- The local state of one `breadth_first_search` call, plus the ghost record
of its printed output (`order`, `goalReached`). -/
structure BfsState (T : Type) where
  frontier : List T
  visited : List T
  order : List T
  goalReached : Bool

/-- One step of the neighbour loop of `breadth_first_search`: skip an
already-visited node, otherwise mark it visited and push it. -/
def bfsVisit [DecidableEq T] (st : BfsState T) (e : Nat × T) : BfsState T :=
  if e.2 ∈ st.visited then st
  else { st with visited := e.2 :: st.visited, frontier := e.2 :: st.frontier }

/-- The `loop` of `breadth_first_search`, with fuel. -/
def bfsLoop [DecidableEq T] (g : WeightedGraph T) (goal : Option T) :
    Nat → BfsState T → Option (BfsState T)
  | 0, _ => none
  | fuel + 1, st =>
    match st.frontier with
    | [] => some st
    | current :: rest =>
      let st1 : BfsState T :=
        { st with frontier := rest, order := st.order ++ [current] }
      if (goal.map (fun gl => decide (gl = current))).getD false then
        some { st1 with goalReached := true }
      else
        bfsLoop g goal fuel ((g.neighbours current).foldl bfsVisit st1)

def bfsInit (start : T) : BfsState T :=
  { frontier := [start], visited := [start], order := [], goalReached := false }

/-- `breadth_first_search(graph, start, goal)`, run with the given fuel. -/
def breadth_first_search [DecidableEq T] (g : WeightedGraph T) (start : T)
    (goal : Option T) (fuel : Nat) : Option (BfsState T) :=
  bfsLoop g goal fuel (bfsInit start)

/-- The stdout lines of a `breadth_first_search` call (its only output):
one `"    Visiting: {}"` line per visited node, then `"    Goal reached."`
iff the goal test fired. -/
def printedOfBfs (sh : T → String) (st : BfsState T) : List String :=
  st.order.map (fun n => "    Visiting: " ++ sh n) ++
    (if st.goalReached then ["    Goal reached."] else [])

/-! ## `dijkstra_search` -/

/-- The local state of one `dijkstra_search` call: the priority frontier,
the two maps, and the ghost record of the printed output. -/
structure DijkstraState (T : Type) where
  frontier : List (MinPriorityNode T)
  came_from : T → Option T
  cost_so_far : T → Option Nat
  order : List T
  goalReached : Bool

/-- The body of the `for (cost, next) in graph.neighbours(current)` loop of
`dijkstra_search` (lines 153–163 of the source): compute
`new_cost = cost_so_far.get(&current) + cost`; if `next` has a recorded cost
that `new_cost` strictly exceeds, do nothing; otherwise record
`cost_so_far[next] = new_cost`, `came_from[next] = current`, and push
`(next, new_cost)` onto the frontier. -/
def relax [DecidableEq T] (current : T) (st : DijkstraState T) (e : Nat × T) :
    DijkstraState T :=
  let new_cost := mapGet st.cost_so_far current + e.1
  match st.cost_so_far e.2 with
  | some c =>
    if new_cost > c then st
    else
      { st with
        cost_so_far := upd st.cost_so_far e.2 new_cost
        came_from := upd st.came_from e.2 current
        frontier := pqPush ⟨e.2, new_cost⟩ st.frontier }
  | none =>
    { st with
      cost_so_far := upd st.cost_so_far e.2 new_cost
      came_from := upd st.came_from e.2 current
      frontier := pqPush ⟨e.2, new_cost⟩ st.frontier }

/-- Outcome of one iteration of a search loop: the loop exits with a final
state, or continues with a new state. -/
inductive StepResult (S : Type) where
  | done (s : S)
  | next (s : S)

/-- One iteration of the `while !frontier.is_empty()` loop of
`dijkstra_search`.  It pops a minimal-cost entry, reports it visited, breaks
if it is the goal, and otherwise relaxes every neighbour.  Note the popped
entry's own `cost` field is destructured into `_` in the source and never
consulted. -/
def dijkstraStep [DecidableEq T] (g : WeightedGraph T) (goal : T)
    (st : DijkstraState T) : StepResult (DijkstraState T) :=
  match pqPop st.frontier with
  | none => .done st
  | some (e, rest) =>
    let st1 : DijkstraState T :=
      { st with frontier := rest, order := st.order ++ [e.node] }
    if goal = e.node then
      .done { st1 with goalReached := true }
    else
      .next ((g.neighbours e.node).foldl (relax e.node) st1)

/-- The `while` loop of `dijkstra_search`, with fuel. -/
def dijkstraLoop [DecidableEq T] (g : WeightedGraph T) (goal : T) :
    Nat → DijkstraState T → Option (DijkstraState T)
  | 0, _ => none
  | fuel + 1, st =>
    match dijkstraStep g goal st with
    | .done r => some r
    | .next st' => dijkstraLoop g goal fuel st'

/-- The state after `n` more iterations of the `dijkstra_search` loop
(stopping early if the loop exits). -/
def dijkstraTrace [DecidableEq T] (g : WeightedGraph T) (goal : T) :
    Nat → DijkstraState T → DijkstraState T
  | 0, st => st
  | n + 1, st =>
    match dijkstraStep g goal st with
    | .done _ => st
    | .next st' => dijkstraTrace g goal n st'

def dijkstraInit [DecidableEq T] (start : T) : DijkstraState T :=
  { frontier := [⟨start, 0⟩]
    came_from := upd (fun _ => none) start start
    cost_so_far := upd (fun _ => none) start 0
    order := []
    goalReached := false }

/-- `dijkstra_search(graph, start, goal)`, run with the given fuel. -/
def dijkstra_search [DecidableEq T] (g : WeightedGraph T) (start goal : T)
    (fuel : Nat) : Option (DijkstraState T) :=
  dijkstraLoop g goal fuel (dijkstraInit start)

/-- The stdout lines of a `dijkstra_search` call (its only output). -/
def printedOfDijkstra (sh : T → String) (st : DijkstraState T) : List String :=
  st.order.map (fun n => "    Visiting: " ++ sh n) ++
    (if st.goalReached then ["    Goal reached."] else [])

/-- `dijkstra_search` diverges on the given input: no amount of fuel makes
the `while` loop exit. -/
def dijkstraDiverges [DecidableEq T] (g : WeightedGraph T) (start goal : T) : Prop :=
  ∀ fuel, dijkstra_search g start goal fuel = none

/-! ## Paths, reachability and distance -/

/-- `v` is reachable from `start` by following edges of `g`. -/
inductive Reachable (g : WeightedGraph T) (start : T) : T → Prop
  | refl : Reachable g start start
  | step {u : T} {e : Nat × T} :
      Reachable g start u → e ∈ g.neighbours u → Reachable g start e.2

/-- `es` is a valid edge sequence starting at `from_`: each `(w, v)` entry is
an edge of the graph leaving the node reached so far. -/
def IsPathList (g : WeightedGraph T) : T → List (Nat × T) → Prop
  | _, [] => True
  | from_, e :: rest => e ∈ g.neighbours from_ ∧ IsPathList g e.2 rest

/-- The node an edge sequence starting at `from_` ends at (the target of the
last edge, or `from_` itself for the empty sequence). -/
def pathEnd (from_ : T) (es : List (Nat × T)) : T :=
  es.foldl (fun _ e => e.2) from_

/-- Total weight of an edge sequence. -/
def pathCost (es : List (Nat × T)) : Nat :=
  (es.map Prod.fst).sum

/-- `c` is the minimum cost over all paths from `start` to `v`. -/
def IsDistance (g : WeightedGraph T) (start v : T) (c : Nat) : Prop :=
  (∃ es, IsPathList g start es ∧ pathEnd start es = v ∧ pathCost es = c) ∧
  (∀ es, IsPathList g start es → pathEnd start es = v → c ≤ pathCost es)

/-- The edge sequence `es` (read from `start` forwards) follows the
`came_from` pointers: each node's predecessor on the path is its recorded
`came_from`. -/
def FollowsCame (came : T → Option T) : T → List (Nat × T) → Prop
  | _, [] => True
  | from_, e :: rest => came e.2 = some from_ ∧ FollowsCame came e.2 rest

/-- Iterate a `came_from` map `n` steps from `v` (`none` if a node with no
recorded predecessor is hit). -/
def cameIter (came : T → Option T) : Nat → T → Option T
  | 0, v => some v
  | n + 1, v =>
    match came v with
    | some u => cameIter came n u
    | none => none

/-- Following the `came_from` pointers from `v` eventually visits `start`. -/
def FollowReaches (came : T → Option T) (start v : T) : Prop :=
  ∃ n, cameIter came n v = some start

/-! ## Concrete instances used by witnesses and counterexamples -/

/-- A five-element node type for concrete runs. -/
inductive N5 : Type
  | a | b | c | d | e
deriving DecidableEq, Fintype

/-- Rendering of `N5` nodes for the printed-output model (`fmt::Show`). -/
def showN5 : N5 → String
  | .a => "a" | .b => "b" | .c => "c" | .d => "d" | .e => "e"

/-- The demonstration graph built in `main()`, as a `SimpleGraph`. -/
def demoSG : SimpleGraph N5 :=
  ⟨fun v => match v with
    | .a => some [.b]
    | .b => some [.a, .c, .d]
    | .c => some [.a]
    | .d => some [.e, .a]
    | .e => some [.b]⟩

/-- The `WeightedGraph` capability of the demonstration graph, written out
as the sequences its `Neighbours` iterators yield (each adjacency list
reversed and unit-weighted). -/
def demoG : WeightedGraph N5 :=
  ⟨fun v => match v with
    | .a => [(1, .b)]
    | .b => [(1, .d), (1, .c), (1, .a)]
    | .c => [(1, .a)]
    | .d => [(1, .a), (1, .e)]
    | .e => [(1, .b)]⟩

/-- Weighted graph with a cheap detour: `a→b` costs 10 directly but 2 via
`c`; `b→e` costs 1.  Exercises a stale frontier entry for `b`. -/
def gStale : WeightedGraph N5 :=
  ⟨fun v => match v with
    | .a => [(10, .b), (1, .c)]
    | .b => [(1, .e)]
    | .c => [(1, .b)]
    | _ => []⟩

/-- A zero-weight two-cycle `a ↔ b`; node `c` is absent. -/
def gZ : WeightedGraph N5 :=
  ⟨fun v => match v with
    | .a => [(0, .b)]
    | .b => [(0, .a)]
    | _ => []⟩

/-- `a → b` costing 1, then a zero-weight cycle `b ↔ c`, and a zero-weight
edge `c → d`. -/
def gZigzag : WeightedGraph N5 :=
  ⟨fun v => match v with
    | .a => [(1, .b)]
    | .b => [(0, .c)]
    | .c => [(0, .b), (0, .d)]
    | _ => []⟩

/-- `a → b` with weight 1. -/
def gUnit : WeightedGraph N5 :=
  ⟨fun v => match v with | .a => [(1, .b)] | _ => []⟩

/-- `a → b` with weight 2. -/
def gDouble : WeightedGraph N5 :=
  ⟨fun v => match v with | .a => [(2, .b)] | _ => []⟩

/-- A `SimpleGraph` whose adjacency map omits node `c`. -/
def demoSGsparse : SimpleGraph N5 :=
  ⟨fun v => match v with
    | .a => some [.b]
    | .b => some [.a]
    | _ => none⟩

/-- A mid-search state with `a` recorded at cost 0 and `b` at cost 2. -/
def stTwo : DijkstraState N5 :=
  { frontier := []
    came_from := upd (upd (fun _ => none) N5.a N5.a) N5.b N5.c
    cost_so_far := upd (upd (fun _ => none) N5.a 0) N5.b 2
    order := [N5.a]
    goalReached := false }

/-- Same visitation order and goal flag as `stTwo`, but empty maps and a
non-empty frontier. -/
def stTwoAlt : DijkstraState N5 :=
  { frontier := [⟨N5.e, 7⟩]
    came_from := fun _ => none
    cost_so_far := fun _ => none
    order := [N5.a]
    goalReached := false }

/-- Same visitation order and goal flag as `bfsInit a`, but different
frontier and visited set. -/
def bfsAlt : BfsState N5 :=
  { frontier := [], visited := [N5.a, N5.b], order := [], goalReached := false }

/-! ### Invariant and measure definitions used by the proofs -/

/-- The looping invariant on `gZ` with goal `c`: the frontier holds exactly
one zero-cost entry for `a` or for `b`, and both nodes are recorded at
cost 0. -/
def gZInv (st : DijkstraState N5) : Prop :=
  (st.frontier = [⟨N5.a, 0⟩] ∨ st.frontier = [⟨N5.b, 0⟩]) ∧
  st.cost_so_far N5.a = some 0 ∧ st.cost_so_far N5.b = some 0

/-- `BfsState` with each frontier entry stamped by the sequence number of
the push that created it. -/
structure BfsStampedState (T : Type) where
  frontier : List (Nat × T)
  stampCounter : Nat
  visited : List T
  order : List T
  goalReached : Bool

/-- The neighbour step of `breadth_first_search`, stamping pushes. -/
def bfsStampedVisit [DecidableEq T] (st : BfsStampedState T) (e : Nat × T) :
    BfsStampedState T :=
  if e.2 ∈ st.visited then st
  else
    { st with
      visited := e.2 :: st.visited
      frontier := (st.stampCounter, e.2) :: st.frontier
      stampCounter := st.stampCounter + 1 }

/-- The `breadth_first_search` loop on stamped states. -/
def bfsStampedLoop [DecidableEq T] (g : WeightedGraph T) (goal : Option T) :
    Nat → BfsStampedState T → Option (BfsStampedState T)
  | 0, _ => none
  | fuel + 1, st =>
    match st.frontier with
    | [] => some st
    | (_, current) :: rest =>
      let st1 : BfsStampedState T :=
        { st with frontier := rest, order := st.order ++ [current] }
      if (goal.map (fun gl => decide (gl = current))).getD false then
        some { st1 with goalReached := true }
      else
        bfsStampedLoop g goal fuel ((g.neighbours current).foldl bfsStampedVisit st1)

def bfsStampedInit (start : T) : BfsStampedState T :=
  { frontier := [(0, start)], stampCounter := 1, visited := [start],
    order := [], goalReached := false }

/-- Forget the stamps. -/
def eraseStamps (st : BfsStampedState T) : BfsState T :=
  { frontier := st.frontier.map Prod.snd, visited := st.visited,
    order := st.order, goalReached := st.goalReached }

/-- Along a whole run, every iteration pops a frontier entry whose stamp is
maximal, i.e. the most recently pushed node still present. -/
def bfsLifoCheck [DecidableEq T] (g : WeightedGraph T) (goal : Option T) :
    Nat → BfsStampedState T → Bool
  | 0, _ => true
  | fuel + 1, st =>
    match st.frontier with
    | [] => true
    | (n, current) :: rest =>
      st.frontier.all (fun e => e.1 ≤ n) &&
        (if (goal.map (fun gl => decide (gl = current))).getD false then true
         else
           bfsLifoCheck g goal fuel ((g.neighbours current).foldl bfsStampedVisit
             { st with frontier := rest, order := st.order ++ [current] }))

/-- Frontier stamps are strictly decreasing from the top of the stack and
below the stamp counter. -/
def stampsOK (st : BfsStampedState T) : Prop :=
  st.frontier.Pairwise (fun x y => y.1 < x.1) ∧
  ∀ e ∈ st.frontier, e.1 < st.stampCounter

/-- Invariant carried by every state of a `breadth_first_search` run with
`goal = none`. -/
def BfsInv (g : WeightedGraph T) (start : T) (N : List T) (st : BfsState T) : Prop :=
  (st.order ++ st.frontier).Nodup ∧
  (∀ v, v ∈ st.visited ↔ (v ∈ st.order ∨ v ∈ st.frontier)) ∧
  (∀ v ∈ st.visited, Reachable g start v) ∧
  (∀ v ∈ st.order, ∀ e ∈ g.neighbours v, e.2 ∈ st.visited) ∧
  (start ∈ st.visited) ∧
  (∀ v ∈ st.visited, v ∈ N)

/-- The part of `BfsInv` preserved by the inner neighbour fold. -/
def BfsMid (g : WeightedGraph T) (start : T) (N : List T) (st : BfsState T) : Prop :=
  (st.order ++ st.frontier).Nodup ∧
  (∀ v, v ∈ st.visited ↔ (v ∈ st.order ∨ v ∈ st.frontier)) ∧
  (∀ v ∈ st.visited, Reachable g start v) ∧
  (start ∈ st.visited) ∧
  (∀ v ∈ st.visited, v ∈ N)

/-- Termination measure: frontier entries count 1, unvisited listed nodes
count 2. -/
def bfsMeasure [DecidableEq T] (N : List T) (st : BfsState T) : Nat :=
  st.frontier.length + 2 * (N.dedup.filter (fun v => decide (v ∉ st.visited))).length

/-- Path nodes and prefix costs along a fixed edge sequence. -/
def vtx (start : T) (es : List (Nat × T)) (i : Nat) : T :=
  pathEnd start (es.take i)

def pfx (es : List (Nat × T)) (i : Nat) : Nat :=
  pathCost (es.take i)

/-- `m'` refines `m` downward: every recorded cost stays recorded and never
increases. -/
def costStep (m m' : T → Option Nat) : Prop :=
  ∀ v c, m v = some c → ∃ c', m' v = some c' ∧ c' ≤ c

/-- Frontier entries are recorded, at a cost no larger than the entry's. -/
def DWF (st : DijkstraState T) : Prop :=
  ∀ e ∈ st.frontier, ∃ c, st.cost_so_far e.node = some c ∧ c ≤ e.cost

/-- Every recorded cost is witnessed by an actual path of no larger cost. -/
def CostsAch (g : WeightedGraph T) (start : T) (st : DijkstraState T) : Prop :=
  ∀ v c, st.cost_so_far v = some c →
    ∃ es, IsPathList g start es ∧ pathEnd start es = v ∧ pathCost es ≤ c

def Qp (start : T) (es : List (Nat × T)) (st : DijkstraState T) (i : Nat) : Prop :=
  ∃ c, st.cost_so_far (vtx start es i) = some c ∧ c ≤ pfx es i

def Rp (start : T) (es : List (Nat × T)) (st : DijkstraState T) (i : Nat) : Prop :=
  ∃ f ∈ st.frontier, f.node = vtx start es i ∧ f.cost ≤ pfx es i

def INVd (start : T) (es : List (Nat × T)) (st : DijkstraState T) : Prop :=
  Qp start es st es.length ∨
  ∃ j, j < es.length ∧ Qp start es st j ∧ Rp start es st j ∧
    ∀ i, j < i → i ≤ es.length → ¬ Qp start es st i

/-- Every recorded non-start node has a recorded predecessor one genuine
edge back, at a strictly smaller budget. -/
def ChainInv (g : WeightedGraph T) (start : T) (st : DijkstraState T) : Prop :=
  ∀ v c, st.cost_so_far v = some c → v ≠ start →
    ∃ u w c', st.came_from v = some u ∧ (w, v) ∈ g.neighbours u ∧
      st.cost_so_far u = some c' ∧ c' + w ≤ c

/-- The run of `dijkstra_search` on the demonstration graph from `a` to `d`
(defaulted, but `some`, see the witness). -/
def rDemo : DijkstraState N5 :=
  (dijkstra_search demoG N5.a N5.d 20).getD (dijkstraInit N5.a)

/-- The run of `dijkstra_search` on the zero-weight zig-zag graph. -/
def rZig : DijkstraState N5 :=
  (dijkstra_search gZigzag N5.a N5.d 20).getD (dijkstraInit N5.a)

/-! ### Termination bounds and measure for `dijkstra_search` -/

/-- A strict upper bound on any single edge weight out of a node of `N`. -/
def wBound [DecidableEq T] (g : WeightedGraph T) (N : List T) : Nat :=
  (N.dedup.map (fun u => ((g.neighbours u).map Prod.fst).sum)).sum + 1

/-- A strict upper bound on the out-degree of any node of `N`. -/
def degBound [DecidableEq T] (g : WeightedGraph T) (N : List T) : Nat :=
  (N.dedup.map (fun u => (g.neighbours u).length)).sum + 1

/-- A bound on every recorded cost during a run confined to `N`. -/
def costBound [DecidableEq T] (g : WeightedGraph T) (N : List T) : Nat :=
  N.dedup.length * wBound g N

/-- The number of nodes of `N` carrying a recorded cost. -/
def recCount [DecidableEq T] (N : List T) (st : DijkstraState T) : Nat :=
  (N.dedup.filter (fun v => (st.cost_so_far v).isSome)).length

/-- First component of the termination measure: total recorded cost over `N`,
with unrecorded nodes charged `costBound + 1`. -/
def DD [DecidableEq T] (g : WeightedGraph T) (N : List T)
    (st : DijkstraState T) : Nat :=
  (N.dedup.map (fun v => (st.cost_so_far v).getD (costBound g N + 1))).sum

/-- Frontier potential of a frontier list relative to a cost map: entries whose
node carries a small recorded cost weigh exponentially more. -/
def PhiL [DecidableEq T] (g : WeightedGraph T) (N : List T)
    (cost : T → Option Nat) (fr : List (MinPriorityNode T)) : Nat :=
  (fr.map (fun f => degBound g N ^ (costBound g N - mapGet cost f.node))).sum

/-- Second component of the termination measure. -/
def Phi [DecidableEq T] (g : WeightedGraph T) (N : List T)
    (st : DijkstraState T) : Nat :=
  PhiL g N st.cost_so_far st.frontier

/-- Invariant bundle for the termination proof: frontier nodes lie in `N`,
frontier nodes are recorded at no more than their entry cost, recorded nodes
lie in `N`, and every recorded cost is at most `recCount * wBound`. -/
def TermInv [DecidableEq T] (g : WeightedGraph T) (N : List T)
    (st : DijkstraState T) : Prop :=
  (∀ f ∈ st.frontier, f.node ∈ N) ∧
  DWF st ∧
  (∀ v c, st.cost_so_far v = some c → v ∈ N) ∧
  (∀ v c, st.cost_so_far v = some c → c ≤ recCount N st * wBound g N)

/-! ## Basic lemmas about the `Neighbours` iterator -/

theorem Neighbours.toList_mk_nil : (Neighbours.mk ([] : List (Nat × T))).toList = [] := by
  unfold Neighbours.toList
  rfl

theorem Neighbours.toList_mk_cons (x : Nat × T) (xs : List (Nat × T)) :
    (Neighbours.mk (x :: xs)).toList =
      (x :: xs).getLast (by simp) :: (Neighbours.mk (x :: xs).dropLast).toList := by
  conv_lhs => rw [Neighbours.toList]
  split
  · rename_i heq
    simp [Neighbours.next] at heq
  · rename_i p it' heq
    simp [Neighbours.next] at heq
    obtain ⟨h1, h2⟩ := heq
    simp [h1, h2]

/-- The `Neighbours` iterator yields the stored vector back to front. -/
theorem Neighbours.toList_eq (it : Neighbours T) : it.toList = it.nodes.reverse := by
  obtain ⟨l⟩ := it
  generalize hn : l.length = n
  induction n generalizing l with
  | zero =>
    rw [List.length_eq_zero] at hn
    subst hn
    exact Neighbours.toList_mk_nil
  | succ n ih =>
    match l with
    | x :: xs =>
      rw [Neighbours.toList_mk_cons]
      have hlast : (x :: xs).dropLast ++ [(x :: xs).getLast (by simp)] = x :: xs :=
        List.dropLast_append_getLast (by simp)
      have hlen : (x :: xs).dropLast.length = n := by
        simp at hn
        simp [List.length_dropLast, hn]
      rw [ih _ hlen]
      conv_rhs => rw [← hlast]
      simp

/-! ## C8: the min-priority ordering adapter -/

/-- C8 (counterexample): two `MinPriorityNode` values with equal costs but
different nodes compare as `Ordering.eq` under the hand-written `cmp`, yet
are **unequal** under the derived `PartialEq`: equality is not determined
solely by the cost field. -/
theorem mpn_eq_not_by_cost_alone :
    mpnCmp (⟨0, 5⟩ : MinPriorityNode Nat) ⟨1, 5⟩ = Ordering.eq ∧
    mpnBeq (⟨0, 5⟩ : MinPriorityNode Nat) ⟨1, 5⟩ = false := by
  constructor <;> rfl

/-- C8 (amended): the hand-written ordering of `MinPriorityNode` is
determined solely by the cost fields and inverts the natural order
(`a` orders below `b` exactly when `a.cost > b.cost`), but the derived
equality is structural: it compares the node **and** the cost field. -/
theorem mpn_cmp_inverts_cost_eq_structural [DecidableEq T]
    (x y : MinPriorityNode T) :
    (mpnCmp x y = Ordering.lt ↔ y.cost < x.cost) ∧
    (mpnCmp x y = Ordering.eq ↔ y.cost = x.cost) ∧
    (mpnCmp x y = Ordering.gt ↔ x.cost < y.cost) ∧
    (mpnBeq x y = true ↔ x.node = y.node ∧ x.cost = y.cost) := by
  refine ⟨?_, ?_, ?_, ?_⟩
  · simp [mpnCmp, Nat.compare_eq_lt]
  · simp [mpnCmp, Nat.compare_eq_eq]
  · simp [mpnCmp, Nat.compare_eq_gt]
  · simp [mpnBeq]

/-! ## C9 and C10: `SimpleGraph::neighbours` -/

/-- C9: querying the neighbours of a node absent from the adjacency map
yields an empty iterator (no failure): the underlying vector is empty and
the iterator yields nothing. -/
theorem simpleGraph_neighbours_absent [DecidableEq T] (g : SimpleGraph T)
    (node : T) (h : g.edges node = none) :
    (g.neighbours node).nodes = [] ∧ (g.neighbours node).toList = [] := by
  constructor
  · simp [SimpleGraph.neighbours, h]
  · simp [Neighbours.toList_eq, SimpleGraph.neighbours, h]

/-- C9 (witness): a concrete `SimpleGraph` over `N5` with node `c` absent. -/
theorem simpleGraph_neighbours_absent_witness :
    ((demoSGsparse.neighbours N5.c).nodes = [] ∧
      (demoSGsparse.neighbours N5.c).toList = []) :=
  simpleGraph_neighbours_absent demoSGsparse N5.c rfl

/-- C10: for a node stored with list `[n1, …, nk]`, the `Neighbours`
iterator yields exactly `(1, nk), …, (1, n1)`: each stored entry paired with
weight 1, in reverse storage order. -/
theorem simpleGraph_neighbours_present [DecidableEq T] (g : SimpleGraph T)
    (node : T) (l : List T) (h : g.edges node = some l) :
    (g.neighbours node).toList = l.reverse.map (fun v => (1, v)) := by
  simp [Neighbours.toList_eq, SimpleGraph.neighbours, h]

/-- C10 (witness): the demonstration graph's entry `b ↦ [a, c, d]` is
iterated as `(1, d), (1, c), (1, a)`. -/
theorem simpleGraph_neighbours_present_witness :
    (demoSG.neighbours N5.b).toList = [(1, N5.d), (1, N5.c), (1, N5.a)] :=
  simpleGraph_neighbours_present demoSG N5.b [N5.a, N5.c, N5.d] rfl

/-! ## Characterisation of `relax` (shared helper lemmas) -/

theorem relax_skip [DecidableEq T] (current : T) (st : DijkstraState T)
    (w : Nat) (next : T) (c : Nat) (hc : st.cost_so_far next = some c)
    (hgt : c < mapGet st.cost_so_far current + w) :
    relax current st (w, next) = st := by
  simp [relax, hc, hgt]

theorem relax_update [DecidableEq T] (current : T) (st : DijkstraState T)
    (w : Nat) (next : T)
    (h : st.cost_so_far next = none ∨
      ∃ c, st.cost_so_far next = some c ∧ mapGet st.cost_so_far current + w ≤ c) :
    relax current st (w, next) =
      { st with
        cost_so_far := upd st.cost_so_far next (mapGet st.cost_so_far current + w)
        came_from := upd st.came_from next current
        frontier := pqPush ⟨next, mapGet st.cost_so_far current + w⟩ st.frontier } := by
  rcases h with h | ⟨c, hc, hle⟩
  · simp [relax, h]
  · simp [relax, hc, Nat.not_lt.mpr hle]

/-! ## C5: the relaxation policy of `dijkstra_search` -/

/-- C5: for a neighbour `(w, next)` of `current` with
`candidate = cost_so_far[current] + w`: if `next` has a recorded cost that
`candidate` strictly exceeds, the whole state is left unchanged; otherwise
(no prior record, or `candidate ≤` the record) `cost_so_far[next]` becomes
`candidate`, `came_from[next]` becomes `current`, `(next, candidate)` is
pushed onto the frontier, and no other node's entries change. -/
theorem dijkstra_relaxation_policy [DecidableEq T] (current : T)
    (st : DijkstraState T) (w : Nat) (next : T) :
    (∀ c, st.cost_so_far next = some c →
      mapGet st.cost_so_far current + w > c →
      relax current st (w, next) = st) ∧
    ((st.cost_so_far next = none ∨
        ∃ c, st.cost_so_far next = some c ∧ mapGet st.cost_so_far current + w ≤ c) →
      (relax current st (w, next)).cost_so_far next =
          some (mapGet st.cost_so_far current + w) ∧
      (relax current st (w, next)).came_from next = some current ∧
      (relax current st (w, next)).frontier =
          pqPush ⟨next, mapGet st.cost_so_far current + w⟩ st.frontier ∧
      (∀ v, v ≠ next →
        (relax current st (w, next)).cost_so_far v = st.cost_so_far v ∧
        (relax current st (w, next)).came_from v = st.came_from v) ∧
      (relax current st (w, next)).order = st.order ∧
      (relax current st (w, next)).goalReached = st.goalReached) := by
  constructor
  · intro c hc hgt
    exact relax_skip current st w next c hc hgt
  · intro h
    rw [relax_update current st w next h]
    refine ⟨by simp [upd], by simp [upd], rfl, ?_, rfl, rfl⟩
    intro v hv
    constructor <;> simp [upd, hv]

/-- C5 (witness): both branches exercised on concrete states: relaxing
`(1, b)` from `a` in the initial state records cost 1 and pushes `(b, 1)`;
relaxing `(10, b)` in a state where `b` is recorded at cost 2 changes
nothing. -/
theorem dijkstra_relaxation_policy_witness :
    ((relax N5.a (dijkstraInit N5.a) (1, N5.b)).cost_so_far N5.b = some 1 ∧
      (relax N5.a (dijkstraInit N5.a) (1, N5.b)).came_from N5.b = some N5.a ∧
      (relax N5.a (dijkstraInit N5.a) (1, N5.b)).frontier =
        pqPush ⟨N5.b, 1⟩ (dijkstraInit N5.a).frontier) ∧
    relax N5.a stTwo (10, N5.b) = stTwo := by
  constructor
  · have h := (dijkstra_relaxation_policy N5.a (dijkstraInit N5.a) 1 N5.b).2
      (Or.inl rfl)
    exact ⟨h.1, h.2.1, h.2.2.1⟩
  · exact (dijkstra_relaxation_policy N5.a stTwo 10 N5.b).1 2 rfl (by decide)

/-! ## C2: popped stale entries are *not* skipped -/

/-- C2 (counterexample): running `dijkstra_search` on `gStale` from `a`
towards the unreachable `d`, the fifth iteration pops the stale entry
`(b, 10)` although `cost_so_far[b] = 2 < 10` — and far from being skipped,
`b` is reported visited a second time and its neighbours are re-expanded
(pushing `(e, 3)` again). -/
theorem dijkstra_stale_entry_not_skipped_cex :
    pqPop (dijkstraTrace gStale N5.d 4 (dijkstraInit N5.a)).frontier =
      some (⟨N5.b, 10⟩, []) ∧
    (dijkstraTrace gStale N5.d 4 (dijkstraInit N5.a)).cost_so_far N5.b = some 2 ∧
    (2 : Nat) < 10 ∧
    (dijkstraTrace gStale N5.d 5 (dijkstraInit N5.a)).order =
      (dijkstraTrace gStale N5.d 4 (dijkstraInit N5.a)).order ++ [N5.b] ∧
    (dijkstraTrace gStale N5.d 4 (dijkstraInit N5.a)).order =
      [N5.a, N5.c, N5.b, N5.e] ∧
    (dijkstraTrace gStale N5.d 5 (dijkstraInit N5.a)).frontier = [⟨N5.e, 3⟩] := by
  decide

/-- C2 (amended): a popped entry is never skipped, whatever its cost: the
popped node is always reported visited, and unless it is the goal its
neighbours are all expanded; the popped entry's own cost field is ignored
(relaxation reads the currently recorded `cost_so_far` of the node
instead). -/
theorem dijkstra_popped_never_skipped [DecidableEq T] (g : WeightedGraph T)
    (goal : T) (st : DijkstraState T) (e : MinPriorityNode T)
    (rest : List (MinPriorityNode T)) (hpop : pqPop st.frontier = some (e, rest)) :
    (goal = e.node →
      dijkstraStep g goal st =
        .done { st with frontier := rest, order := st.order ++ [e.node],
                        goalReached := true }) ∧
    (goal ≠ e.node →
      dijkstraStep g goal st =
        .next ((g.neighbours e.node).foldl (relax e.node)
          { st with frontier := rest, order := st.order ++ [e.node] })) := by
  constructor
  · intro h
    simp [dijkstraStep, hpop, h]
  · intro h
    simp [dijkstraStep, hpop, h]

/-- C2 (amended, witness): concrete instantiations of both branches at the
initial state of a run on `gUnit`. -/
theorem dijkstra_popped_never_skipped_witness :
    dijkstraStep gUnit N5.a (dijkstraInit N5.a) =
      .done { (dijkstraInit N5.a) with
              frontier := []
              order := [N5.a]
              goalReached := true } ∧
    dijkstraStep gUnit N5.b (dijkstraInit N5.a) =
      .next ((gUnit.neighbours N5.a).foldl (relax N5.a)
        { (dijkstraInit N5.a) with frontier := [], order := [N5.a] }) := by
  constructor
  · have h := (dijkstra_popped_never_skipped gUnit N5.a (dijkstraInit N5.a)
      ⟨N5.a, 0⟩ [] rfl).1 rfl
    simpa using h
  · have h := (dijkstra_popped_never_skipped gUnit N5.b (dijkstraInit N5.a)
      ⟨N5.a, 0⟩ [] rfl).2 (by decide)
    simpa using h

/-! ## C4: what the entry points hand back to their caller -/

/-- C4 (counterexample): the two runs of `dijkstra_search` on `gUnit` and
`gDouble` produce **identical** stdout (the functions' only output — both
return `()` in the source), yet their internal `cost_so_far[b]` differ
(1 vs 2): the cost and predecessor maps are not returned to the caller. -/
theorem dijkstra_output_does_not_determine_maps_cex :
    (dijkstra_search gUnit N5.a N5.b 5).map (printedOfDijkstra showN5) =
      (dijkstra_search gDouble N5.a N5.b 5).map (printedOfDijkstra showN5) ∧
    (dijkstra_search gUnit N5.a N5.b 5).map (fun r => r.cost_so_far N5.b) =
      some (some 1) ∧
    (dijkstra_search gDouble N5.a N5.b 5).map (fun r => r.cost_so_far N5.b) =
      some (some 2) := by
  exact ⟨rfl, rfl, rfl⟩

/-- C4 (amended): both entry points return `()`; everything they communicate
is the printed trace, which is fully determined by the visitation order and
the goal flag — two final states agreeing on those print identically, no
matter how their `visited` / `cost_so_far` / `came_from` structures
differ. -/
theorem searches_emit_only_visit_trace [DecidableEq T] (sh : T → String)
    (rb rb' : BfsState T) (rd rd' : DijkstraState T) :
    (rb.order = rb'.order → rb.goalReached = rb'.goalReached →
      printedOfBfs sh rb = printedOfBfs sh rb') ∧
    (rd.order = rd'.order → rd.goalReached = rd'.goalReached →
      printedOfDijkstra sh rd = printedOfDijkstra sh rd') := by
  constructor
  · intro h1 h2
    simp [printedOfBfs, h1, h2]
  · intro h1 h2
    simp [printedOfDijkstra, h1, h2]

/-- C4 (amended, witness): concrete states agreeing on order and flag while
differing in every other component print the same lines. -/
theorem searches_emit_only_visit_trace_witness :
    printedOfBfs showN5 (bfsInit N5.a) = printedOfBfs showN5 bfsAlt ∧
    printedOfDijkstra showN5 stTwo = printedOfDijkstra showN5 stTwoAlt := by
  constructor
  · exact (searches_emit_only_visit_trace showN5 (bfsInit N5.a) bfsAlt
      stTwo stTwoAlt).1 rfl rfl
  · exact (searches_emit_only_visit_trace showN5 (bfsInit N5.a) bfsAlt
      stTwo stTwoAlt).2 rfl rfl

/-! ## C3 (counterexample): a zero-weight cycle makes the loop run forever -/

/-- If every `P`-state steps to another `P`-state, the loop never exits from
a `P`-state. -/
theorem dijkstraLoop_eq_none_of_closed [DecidableEq T] {g : WeightedGraph T}
    {goal : T} (P : DijkstraState T → Prop)
    (hP : ∀ st, P st → ∃ st', dijkstraStep g goal st = .next st' ∧ P st') :
    ∀ fuel st, P st → dijkstraLoop g goal fuel st = none := by
  intro fuel
  induction fuel with
  | zero => intro st _; rfl
  | succ n ih =>
    intro st h
    obtain ⟨st', hs, hp⟩ := hP st h
    simp only [dijkstraLoop, hs]
    exact ih st' hp

theorem gZInv_step (st : DijkstraState N5) (h : gZInv st) :
    ∃ st', dijkstraStep gZ N5.c st = .next st' ∧ gZInv st' := by
  obtain ⟨hf | hf, ha, hb⟩ := h
  · refine ⟨relax N5.a { st with frontier := [], order := st.order ++ [N5.a] }
      (0, N5.b), ?_, ?_⟩
    · simp [dijkstraStep, hf, pqPop, pqRemoveMin]
      rfl
    · have hcb : ({ st with frontier := [], order := st.order ++ [N5.a]} :
          DijkstraState N5).cost_so_far N5.b = some 0 := hb
      have hca : mapGet ({ st with frontier := [], order := st.order ++ [N5.a]} :
          DijkstraState N5).cost_so_far N5.a + 0 ≤ 0 := by
        simpa [mapGet] using (by simp [ha] : (st.cost_so_far N5.a).getD 0 = 0).le
      rw [relax_update _ _ _ _ (Or.inr ⟨0, hcb, hca⟩)]
      refine ⟨Or.inr ?_, ?_, ?_⟩
      · simp [pqPush, mapGet, ha]
      · simp [upd, mapGet, ha]
      · simp [upd, mapGet, ha]
  · refine ⟨relax N5.b { st with frontier := [], order := st.order ++ [N5.b] }
      (0, N5.a), ?_, ?_⟩
    · simp [dijkstraStep, hf, pqPop, pqRemoveMin]
      rfl
    · have hcb : ({ st with frontier := [], order := st.order ++ [N5.b]} :
          DijkstraState N5).cost_so_far N5.a = some 0 := ha
      have hca : mapGet ({ st with frontier := [], order := st.order ++ [N5.b]} :
          DijkstraState N5).cost_so_far N5.b + 0 ≤ 0 := by
        simpa [mapGet] using (by simp [hb] : (st.cost_so_far N5.b).getD 0 = 0).le
      rw [relax_update _ _ _ _ (Or.inr ⟨0, hcb, hca⟩)]
      refine ⟨Or.inl ?_, ?_, ?_⟩
      · simp [pqPush, mapGet, hb]
      · simp [upd, mapGet, hb, ha]
      · simp [upd, mapGet, hb]

/-- C3 (counterexample): on the zero-weight cycle `a ↔ b` (all weights
non-negative) with unreachable goal `c`, the `dijkstra_search` loop never
terminates: the frontier never empties and the goal is never popped. -/
theorem dijkstra_zero_weight_cycle_diverges : dijkstraDiverges gZ N5.a N5.c := by
  intro fuel
  cases fuel with
  | zero => rfl
  | succ n =>
    show dijkstraLoop gZ N5.c (n + 1) (dijkstraInit N5.a) = none
    have h0 : ∃ s1, dijkstraStep gZ N5.c (dijkstraInit N5.a) = .next s1 ∧ gZInv s1 := by
      refine ⟨_, rfl, ?_⟩
      exact ⟨Or.inr rfl, rfl, rfl⟩
    obtain ⟨s1, hs1, hinv⟩ := h0
    simp only [dijkstraLoop, hs1]
    exact dijkstraLoop_eq_none_of_closed gZInv gZInv_step n s1 hinv

/-! ## C7: the BFS frontier is a LIFO stack

`breadth_first_search` uses its `DList` only through `push`/`pop`, both
acting on the back: a stack.  To state that each pop takes the most recently
pushed surviving node, the state is instrumented with push timestamps; the
instrumentation erases (`eraseStamps`) to the plain search, and along every
run each popped entry carries the maximal (most recent) stamp present in the
frontier. -/

theorem bfsStampedVisit_stampsOK [DecidableEq T] (st : BfsStampedState T)
    (e : Nat × T) (h : stampsOK st) : stampsOK (bfsStampedVisit st e) := by
  obtain ⟨hp, hb⟩ := h
  unfold bfsStampedVisit
  split
  · exact ⟨hp, hb⟩
  · constructor
    · exact List.Pairwise.cons (fun y hy => hb y hy) hp
    · intro f hf
      rcases List.mem_cons.mp hf with hf1 | hf1
      · simp [hf1]
      · exact Nat.lt_succ_of_lt (hb f hf1)

theorem foldl_stampedVisit_stampsOK [DecidableEq T] (l : List (Nat × T)) :
    ∀ st : BfsStampedState T, stampsOK st → stampsOK (l.foldl bfsStampedVisit st) := by
  induction l with
  | nil => intro st h; exact h
  | cons e l ih =>
    intro st h
    exact ih _ (bfsStampedVisit_stampsOK st e h)

theorem bfsLifoCheck_true [DecidableEq T] (g : WeightedGraph T) (goal : Option T) :
    ∀ fuel (st : BfsStampedState T), stampsOK st → bfsLifoCheck g goal fuel st = true := by
  intro fuel
  induction fuel with
  | zero => intro st _; rfl
  | succ n ih =>
    intro st h
    unfold bfsLifoCheck
    cases hf : st.frontier with
    | nil => rfl
    | cons hd rest =>
      obtain ⟨m, current⟩ := hd
      obtain ⟨hp, hb⟩ := h
      rw [hf] at hp hb
      rw [List.pairwise_cons] at hp
      simp only [Bool.and_eq_true, List.all_eq_true]
      constructor
      · intro f hf'
        rcases List.mem_cons.mp hf' with hf1 | hf1
        · simp [hf1]
        · simp only [decide_eq_true_eq]
          exact Nat.le_of_lt (hp.1 f hf1)
      · split
        · rfl
        · apply ih
          apply foldl_stampedVisit_stampsOK
          constructor
          · exact hp.2
          · intro f hf'
            exact hb f (List.mem_cons_of_mem _ hf')

theorem eraseStamps_visit [DecidableEq T] (st : BfsStampedState T) (e : Nat × T) :
    eraseStamps (bfsStampedVisit st e) = bfsVisit (eraseStamps st) e := by
  by_cases hm : e.2 ∈ st.visited
  · simp [bfsStampedVisit, bfsVisit, eraseStamps, hm]
  · simp [bfsStampedVisit, bfsVisit, eraseStamps, hm]

theorem eraseStamps_foldl [DecidableEq T] (l : List (Nat × T)) :
    ∀ st : BfsStampedState T,
      eraseStamps (l.foldl bfsStampedVisit st) = l.foldl bfsVisit (eraseStamps st) := by
  induction l with
  | nil => intro st; rfl
  | cons e l ih =>
    intro st
    rw [List.foldl_cons, List.foldl_cons, ih, eraseStamps_visit]

theorem bfsLoop_eraseStamps [DecidableEq T] (g : WeightedGraph T) (goal : Option T) :
    ∀ fuel (st : BfsStampedState T),
      bfsLoop g goal fuel (eraseStamps st) = (bfsStampedLoop g goal fuel st).map eraseStamps := by
  intro fuel
  induction fuel with
  | zero => intro st; rfl
  | succ n ih =>
    intro st
    show bfsLoop g goal (n + 1) (eraseStamps st) = _
    unfold bfsLoop bfsStampedLoop
    cases hf : st.frontier with
    | nil =>
      have : (eraseStamps st).frontier = [] := by simp [eraseStamps, hf]
      rw [this]
      rfl
    | cons hd rest =>
      obtain ⟨m, current⟩ := hd
      have : (eraseStamps st).frontier = current :: rest.map Prod.snd := by
        simp [eraseStamps, hf]
      rw [this]
      simp only
      split
      · rfl
      · rw [← ih]
        congr 1
        rw [eraseStamps_foldl]
        rfl

/-- C7: `breadth_first_search` manages its frontier with LIFO (stack)
discipline: the plain search is the stamp-erasure of the instrumented one,
and along every instrumented run each iteration pops the entry with the
maximal stamp — the most recently pushed node still in the frontier. -/
theorem bfs_frontier_lifo_discipline [DecidableEq T] (g : WeightedGraph T)
    (start : T) (goal : Option T) (fuel : Nat) :
    bfsLifoCheck g goal fuel (bfsStampedInit start) = true ∧
    breadth_first_search g start goal fuel =
      (bfsStampedLoop g goal fuel (bfsStampedInit start)).map eraseStamps := by
  constructor
  · apply bfsLifoCheck_true
    constructor
    · simp [bfsStampedInit]
    · intro e he
      simp [bfsStampedInit] at he
      simp [he, bfsStampedInit]
  · have h0 : bfsInit start = eraseStamps (bfsStampedInit start) := rfl
    rw [breadth_first_search, h0, bfsLoop_eraseStamps]

/-! ## C6: exhaustive BFS visits exactly the reachable nodes, once each

The graph is "finite" in the sense of the claim via a list `N` of nodes
containing `start` and closed under the neighbour relation. -/

theorem filter_out_one_length [DecidableEq T] (vis : List T) (L : List T)
    (hL : L.Nodup) (v : T) (hv : v ∈ L) (hvis : v ∉ vis) :
    (L.filter (fun x => decide (x ∉ vis))).length =
      (L.filter (fun x => decide (x ∉ v :: vis))).length + 1 := by
  induction L with
  | nil => cases hv
  | cons a L ih =>
    rw [List.nodup_cons] at hL
    rcases List.mem_cons.mp hv with rfl | hv1
    · have hfeq : L.filter (fun x => decide (x ∉ vis)) =
          L.filter (fun x => decide (x ∉ v :: vis)) := by
        apply List.filter_congr
        intro x hx
        have hxv : x ≠ v := fun h => hL.1 (h ▸ hx)
        simp [List.mem_cons, hxv]
      rw [List.filter_cons, List.filter_cons, if_pos (by simpa using hvis),
        if_neg (by simp), List.length_cons, hfeq]
    · have hav : a ≠ v := fun h => hL.1 (h ▸ hv1)
      rw [List.filter_cons, List.filter_cons]
      by_cases hm : a ∈ vis
      · rw [if_neg (by simp [hm]), if_neg (by simp [hm])]
        exact ih hL.2 hv1
      · rw [if_pos (by simpa using hm), if_pos (by simp [List.mem_cons, hav, hm])]
        have := ih hL.2 hv1
        simp only [List.length_cons]
        omega

/-- Effect of one `bfsVisit` application on `BfsMid`, the visited set and
the measure. -/
theorem bfsVisit_pres [DecidableEq T] (g : WeightedGraph T) (start : T)
    (N : List T) (st : BfsState T) (e : Nat × T)
    (hre : Reachable g start e.2) (heN : e.2 ∈ N)
    (h : BfsMid g start N st) :
    BfsMid g start N (bfsVisit st e) ∧
    e.2 ∈ (bfsVisit st e).visited ∧
    (∀ v ∈ st.visited, v ∈ (bfsVisit st e).visited) ∧
    (bfsVisit st e).order = st.order ∧
    (bfsVisit st e).goalReached = st.goalReached ∧
    bfsMeasure N (bfsVisit st e) ≤ bfsMeasure N st := by
  obtain ⟨h1, h2, h3, h4, h5⟩ := h
  by_cases hm : e.2 ∈ st.visited
  · rw [bfsVisit, if_pos hm]
    exact ⟨⟨h1, h2, h3, h4, h5⟩, hm, fun v hv => hv, rfl, rfl, Nat.le_refl _⟩
  · rw [bfsVisit, if_neg hm]
    have hnot : ¬ (e.2 ∈ st.order ∨ e.2 ∈ st.frontier) := fun hc => hm ((h2 e.2).mpr hc)
    refine ⟨⟨?_, ?_, ?_, ?_, ?_⟩, by simp, fun v hv => by simp [hv], rfl, rfl, ?_⟩
    · show (st.order ++ e.2 :: st.frontier).Nodup
      rw [List.nodup_middle, List.nodup_cons]
      refine ⟨fun hc => hnot ?_, h1⟩
      rcases List.mem_append.mp hc with hc | hc
      · exact Or.inl hc
      · exact Or.inr hc
    · intro v
      show v ∈ e.2 :: st.visited ↔ v ∈ st.order ∨ v ∈ e.2 :: st.frontier
      simp only [List.mem_cons, h2 v]
      tauto
    · intro v hv
      rcases List.mem_cons.mp hv with rfl | hv1
      · exact hre
      · exact h3 v hv1
    · exact List.mem_cons_of_mem _ h4
    · intro v hv
      rcases List.mem_cons.mp hv with rfl | hv1
      · exact heN
      · exact h5 v hv1
    · show (e.2 :: st.frontier).length + 2 *
          (N.dedup.filter (fun v => decide (v ∉ e.2 :: st.visited))).length ≤
        bfsMeasure N st
      have hd : (N.dedup.filter (fun v => decide (v ∉ st.visited))).length =
          (N.dedup.filter (fun v => decide (v ∉ e.2 :: st.visited))).length + 1 :=
        filter_out_one_length st.visited N.dedup N.nodup_dedup e.2
          (List.mem_dedup.mpr heN) hm
      simp only [bfsMeasure, List.length_cons, hd]
      omega

/-- Effect of folding `bfsVisit` over a neighbour list. -/
theorem bfs_fold_pres [DecidableEq T] (g : WeightedGraph T) (start : T)
    (N : List T) (c : T) (hc : Reachable g start c)
    (hcN : ∀ e ∈ g.neighbours c, e.2 ∈ N) :
    ∀ l : List (Nat × T), (∀ e ∈ l, e ∈ g.neighbours c) →
      ∀ st : BfsState T, BfsMid g start N st →
      BfsMid g start N (l.foldl bfsVisit st) ∧
      (∀ e ∈ l, e.2 ∈ (l.foldl bfsVisit st).visited) ∧
      (∀ v ∈ st.visited, v ∈ (l.foldl bfsVisit st).visited) ∧
      (l.foldl bfsVisit st).order = st.order ∧
      (l.foldl bfsVisit st).goalReached = st.goalReached ∧
      bfsMeasure N (l.foldl bfsVisit st) ≤ bfsMeasure N st := by
  intro l
  induction l with
  | nil =>
    intro _ st h
    exact ⟨h, by simp, fun v hv => hv, rfl, rfl, Nat.le_refl _⟩
  | cons e l ih =>
    intro hl st h
    have he : e ∈ g.neighbours c := hl e (by simp)
    have hstep := bfsVisit_pres g start N st e
      (Reachable.step hc he) (hcN e he) h
    obtain ⟨hmid, hmem, hmono, hord, hflag, hmeas⟩ := hstep
    have hrec := ih (fun f hf => hl f (List.mem_cons_of_mem _ hf)) (bfsVisit st e) hmid
    obtain ⟨rmid, rmem, rmono, rord, rflag, rmeas⟩ := hrec
    refine ⟨rmid, ?_, ?_, ?_, ?_, ?_⟩
    · intro f hf
      rcases List.mem_cons.mp hf with rfl | hf1
      · exact rmono _ hmem
      · exact rmem f hf1
    · intro v hv
      exact rmono v (hmono v hv)
    · rw [List.foldl_cons, rord, hord]
    · rw [List.foldl_cons, rflag, hflag]
    · exact Nat.le_trans rmeas hmeas

/-- The `breadth_first_search` loop with `goal = none` terminates (with the
given measure as fuel) in a state satisfying the invariant with an empty
frontier. -/
theorem bfs_loop_total [DecidableEq T] (g : WeightedGraph T) (start : T)
    (N : List T) (hcl : ∀ u ∈ N, ∀ e ∈ g.neighbours u, e.2 ∈ N) :
    ∀ fuel (st : BfsState T), BfsInv g start N st → bfsMeasure N st < fuel →
      ∃ r, bfsLoop g none fuel st = some r ∧ BfsInv g start N r ∧
        r.frontier = [] ∧ (∀ v ∈ st.order, v ∈ r.order) ∧
        r.goalReached = st.goalReached := by
  intro fuel
  induction fuel with
  | zero => intro st _ h; cases h
  | succ n ih =>
    intro st hinv hfuel
    obtain ⟨h1, h2, h3, h4, h6, h5⟩ := hinv
    cases hf : st.frontier with
    | nil =>
      refine ⟨st, ?_, ⟨h1, h2, h3, h4, h6, h5⟩, hf, fun v hv => hv, rfl⟩
      show bfsLoop g none (n + 1) st = some st
      unfold bfsLoop
      rw [hf]
    | cons c rest =>
      have hcvis : c ∈ st.visited := (h2 c).mpr (Or.inr (by simp [hf]))
      have hcr : Reachable g start c := h3 c hcvis
      have hcN : c ∈ N := h5 c hcvis
      have hmid1 : BfsMid g start N
          { st with frontier := rest, order := st.order ++ [c] } := by
        refine ⟨?_, ?_, h3, h6, h5⟩
        · show ((st.order ++ [c]) ++ rest).Nodup
          rw [List.append_assoc]
          rw [hf] at h1
          exact h1
        · intro v
          show v ∈ st.visited ↔ v ∈ st.order ++ [c] ∨ v ∈ rest
          rw [h2 v, hf]
          simp only [List.mem_append, List.mem_cons, List.mem_singleton]
          tauto
      have hfold := bfs_fold_pres g start N c hcr (hcl c hcN)
        (g.neighbours c) (fun e he => he) _ hmid1
      obtain ⟨fmid, fmem, fmono, ford, fflag, fmeas⟩ := hfold
      have hmeas1 : bfsMeasure N { st with frontier := rest, order := st.order ++ [c] }
          + 1 = bfsMeasure N st := by
        simp [bfsMeasure, hf]
        omega
      have hinv' : BfsInv g start N
          ((g.neighbours c).foldl bfsVisit
            { st with frontier := rest, order := st.order ++ [c] }) := by
        obtain ⟨f1, f2, f3, f6, f5⟩ := fmid
        refine ⟨f1, f2, f3, ?_, f6, f5⟩
        intro v hv e he
        rw [ford] at hv
        rcases List.mem_append.mp hv with hv1 | hv1
        · exact fmono e.2 (h4 v hv1 e he)
        · have : v = c := by simpa using hv1
          subst this
          exact fmem e he
      have hrec := ih _ hinv' (by omega)
      obtain ⟨r, hr, hrinv, hremp, hrord, hrflag⟩ := hrec
      refine ⟨r, ?_, hrinv, hremp, ?_, ?_⟩
      · show bfsLoop g none (n + 1) st = some r
        unfold bfsLoop
        rw [hf]
        simpa using hr
      · intro v hv
        have hvc : v ∈ st.order ++ [c] := List.mem_append.mpr (Or.inl hv)
        refine hrord v ?_
        rw [ford]
        exact hvc
      · rw [hrflag, fflag]

/-- Any set containing `start` and closed under the neighbour relation
contains every reachable node. -/
theorem reachable_of_closed (g : WeightedGraph T) (start : T) (S : T → Prop)
    (hstart : S start)
    (hclosed : ∀ u, S u → ∀ e ∈ g.neighbours u, S e.2) :
    ∀ v, Reachable g start v → S v := by
  intro v h
  induction h with
  | refl => exact hstart
  | step hr he ih => exact hclosed _ ih _ he

/-- C6: with `goal = None` and a finite node list `N` containing `start` and
closed under edges, `breadth_first_search` terminates (fuel `2|N| + 2`
suffices), and its visitation sequence contains every node reachable from
`start` exactly once and no unreachable node. -/
theorem bfs_none_visits_reachable_exactly_once [DecidableEq T]
    (g : WeightedGraph T) (start : T) (N : List T) (hs : start ∈ N)
    (hcl : ∀ u ∈ N, ∀ e ∈ g.neighbours u, e.2 ∈ N) :
    ∃ r, breadth_first_search g start none (2 * N.length + 2) = some r ∧
      r.order.Nodup ∧ (∀ v, v ∈ r.order ↔ Reachable g start v) := by
  have hinv0 : BfsInv g start N (bfsInit start) := by
    refine ⟨by simp [bfsInit], ?_, ?_, by simp [bfsInit], by simp [bfsInit], ?_⟩
    · intro v
      simp [bfsInit]
    · intro v hv
      simp [bfsInit] at hv
      subst hv
      exact Reachable.refl
    · intro v hv
      simp [bfsInit] at hv
      subst hv
      exact hs
  have hfuel : bfsMeasure N (bfsInit start) < 2 * N.length + 2 := by
    have hle : (N.dedup.filter (fun v => decide (v ∉ [start]))).length ≤ N.length :=
      Nat.le_trans (List.length_filter_le _ _) (List.Sublist.length_le N.dedup_sublist)
    simp only [bfsMeasure, bfsInit, List.length_singleton]
    omega
  obtain ⟨r, hr, hrinv, hremp, -, -⟩ :=
    bfs_loop_total g start N hcl (2 * N.length + 2) (bfsInit start) hinv0 hfuel
  obtain ⟨r1, r2, r3, r4, r6, r5⟩ := hrinv
  refine ⟨r, hr, ?_, ?_⟩
  · rw [hremp] at r1
    simpa using r1
  · intro v
    constructor
    · intro hv
      exact r3 v ((r2 v).mpr (Or.inl hv))
    · intro hv
      have hsub : ∀ u, u ∈ r.visited → ∀ e ∈ g.neighbours u, e.2 ∈ r.visited := by
        intro u hu e he
        rcases (r2 u).mp hu with hu1 | hu1
        · exact r4 u hu1 e he
        · rw [hremp] at hu1
          cases hu1
      have hvS : v ∈ r.visited :=
        reachable_of_closed g start (fun x => x ∈ r.visited) r6 hsub v hv
      rcases (r2 v).mp hvS with h | h
      · exact h
      · rw [hremp] at h
        cases h

/-! ## Priority-queue model lemmas -/

theorem pqRemoveMin_perm (b : MinPriorityNode T) (l : List (MinPriorityNode T)) :
    List.Perm ((pqRemoveMin b l).1 :: (pqRemoveMin b l).2) (b :: l) := by
  induction l generalizing b with
  | nil => rfl
  | cons x xs ih =>
    rw [pqRemoveMin]
    split
    · show ((pqRemoveMin x xs).1 :: b :: (pqRemoveMin x xs).2).Perm (b :: x :: xs)
      exact (List.Perm.swap b (pqRemoveMin x xs).1 (pqRemoveMin x xs).2).trans
        ((ih x).cons b)
    · show ((pqRemoveMin b xs).1 :: x :: (pqRemoveMin b xs).2).Perm (b :: x :: xs)
      exact (List.Perm.swap x (pqRemoveMin b xs).1 (pqRemoveMin b xs).2).trans
        (((ih b).cons x).trans (List.Perm.swap b x xs))

theorem pqRemoveMin_min (b : MinPriorityNode T) (l : List (MinPriorityNode T)) :
    ∀ e ∈ b :: l, (pqRemoveMin b l).1.cost ≤ e.cost := by
  induction l generalizing b with
  | nil =>
    intro e he
    rcases List.mem_cons.mp he with rfl | he1
    · exact Nat.le_refl _
    · cases he1
  | cons x xs ih =>
    intro e he
    rw [pqRemoveMin]
    split
    · rename_i hlt
      show (pqRemoveMin x xs).1.cost ≤ e.cost
      rcases List.mem_cons.mp he with rfl | he1
      · exact Nat.le_of_lt (Nat.lt_of_le_of_lt (ih x x (by simp)) hlt)
      · exact ih x e he1
    · rename_i hge
      show (pqRemoveMin b xs).1.cost ≤ e.cost
      rcases List.mem_cons.mp he with rfl | he1
      · exact ih e e (by simp)
      · rcases List.mem_cons.mp he1 with rfl | he2
        · exact Nat.le_trans (ih b b (by simp)) (Nat.le_of_not_lt hge)
        · exact ih b e (List.mem_cons_of_mem _ he2)

theorem pqPop_perm {l : List (MinPriorityNode T)} {e : MinPriorityNode T}
    {rest : List (MinPriorityNode T)} (h : pqPop l = some (e, rest)) :
    List.Perm l (e :: rest) := by
  cases l with
  | nil => cases h
  | cons x xs =>
    rw [pqPop] at h
    have h1 : pqRemoveMin x xs = (e, rest) := Option.some.inj h
    have hp := pqRemoveMin_perm x xs
    rw [h1] at hp
    exact hp.symm

theorem pqPop_min {l : List (MinPriorityNode T)} {e : MinPriorityNode T}
    {rest : List (MinPriorityNode T)} (h : pqPop l = some (e, rest)) :
    ∀ f ∈ l, e.cost ≤ f.cost := by
  cases l with
  | nil => cases h
  | cons x xs =>
    rw [pqPop] at h
    have h1 : pqRemoveMin x xs = (e, rest) := Option.some.inj h
    intro f hf
    have hm := pqRemoveMin_min x xs f hf
    rw [h1] at hm
    exact hm

/-! ## Path lemmas -/

theorem pathEnd_nil (s : T) : pathEnd s ([] : List (Nat × T)) = s := rfl

theorem pathEnd_cons (s : T) (e : Nat × T) (es : List (Nat × T)) :
    pathEnd s (e :: es) = pathEnd e.2 es := rfl

theorem pathEnd_append (s : T) (es1 es2 : List (Nat × T)) :
    pathEnd s (es1 ++ es2) = pathEnd (pathEnd s es1) es2 := by
  simp [pathEnd, List.foldl_append]

theorem pathEnd_single (s : T) (e : Nat × T) : pathEnd s [e] = e.2 := rfl

theorem pathCost_nil : pathCost ([] : List (Nat × T)) = 0 := rfl

theorem pathCost_cons (e : Nat × T) (es : List (Nat × T)) :
    pathCost (e :: es) = e.1 + pathCost es := rfl

theorem pathCost_append (es1 es2 : List (Nat × T)) :
    pathCost (es1 ++ es2) = pathCost es1 + pathCost es2 := by
  simp [pathCost]

theorem isPathList_append (g : WeightedGraph T) (s : T) (es1 es2 : List (Nat × T)) :
    IsPathList g s (es1 ++ es2) ↔
      IsPathList g s es1 ∧ IsPathList g (pathEnd s es1) es2 := by
  induction es1 generalizing s with
  | nil => simp [IsPathList, pathEnd_nil]
  | cons e es1 ih =>
    show (e ∈ g.neighbours s ∧ IsPathList g e.2 (es1 ++ es2)) ↔ _
    rw [ih e.2]
    show _ ↔ (e ∈ g.neighbours s ∧ IsPathList g e.2 es1) ∧ _
    rw [pathEnd_cons]
    tauto

theorem vtx_zero (start : T) (es : List (Nat × T)) : vtx start es 0 = start := rfl

theorem vtx_full (start : T) (es : List (Nat × T)) :
    vtx start es es.length = pathEnd start es := by
  simp [vtx, List.take_length]

theorem pfx_zero (es : List (Nat × T)) : pfx es 0 = 0 := rfl

theorem pfx_full (es : List (Nat × T)) : pfx es es.length = pathCost es := by
  simp [pfx, List.take_length]

theorem vtx_succ (start : T) (es : List (Nat × T)) (i : Nat) (h : i < es.length) :
    vtx start es (i + 1) = (es.get ⟨i, h⟩).2 := by
  unfold vtx
  rw [← List.take_concat_get es i h, List.concat_eq_append, pathEnd_append,
    pathEnd_single]
  rfl

theorem pfx_succ (es : List (Nat × T)) (i : Nat) (h : i < es.length) :
    pfx es (i + 1) = pfx es i + (es.get ⟨i, h⟩).1 := by
  unfold pfx
  rw [← List.take_concat_get es i h, List.concat_eq_append, pathCost_append]
  rfl

theorem pfx_le_succ (es : List (Nat × T)) (i : Nat) : pfx es i ≤ pfx es (i + 1) := by
  by_cases hi : i < es.length
  · rw [pfx_succ es i hi]
    omega
  · unfold pfx
    rw [List.take_of_length_le (by omega), List.take_of_length_le (by omega)]

theorem pfx_mono (es : List (Nat × T)) {i j : Nat} (h : i ≤ j) :
    pfx es i ≤ pfx es j := by
  induction j with
  | zero =>
    cases Nat.le_zero.mp h
    exact Nat.le_refl _
  | succ j ih =>
    rcases Nat.eq_or_lt_of_le h with rfl | h1
    · exact Nat.le_refl _
    · exact Nat.le_trans (ih (Nat.lt_succ_iff.mp h1)) (pfx_le_succ es j)

theorem isPathList_take (g : WeightedGraph T) (s : T) (es : List (Nat × T))
    (h : IsPathList g s es) (i : Nat) : IsPathList g s (es.take i) := by
  have := (isPathList_append g s (es.take i) (es.drop i)).mp
    (by rw [List.take_append_drop]; exact h)
  exact this.1

theorem isPathList_get_mem (g : WeightedGraph T) (s : T) (es : List (Nat × T))
    (h : IsPathList g s es) (i : Nat) (hi : i < es.length) :
    es.get ⟨i, hi⟩ ∈ g.neighbours (vtx s es i) := by
  have hsplit := (isPathList_append g s (es.take i) (es.drop i)).mp
    (by rw [List.take_append_drop]; exact h)
  have hdrop : es.drop i = es.get ⟨i, hi⟩ :: es.drop (i + 1) :=
    List.drop_eq_get_cons hi
  rw [hdrop] at hsplit
  exact hsplit.2.1

theorem exists_path_of_reachable (g : WeightedGraph T) (start v : T)
    (h : Reachable g start v) :
    ∃ es, IsPathList g start es ∧ pathEnd start es = v := by
  induction h with
  | refl => exact ⟨[], trivial, rfl⟩
  | @step u e hr he ih =>
    obtain ⟨es, hp, hend⟩ := ih
    refine ⟨es ++ [e], ?_, ?_⟩
    · refine (isPathList_append g start es [e]).mpr ⟨hp, ?_⟩
      rw [hend]
      exact ⟨he, trivial⟩
    · rw [pathEnd_append, pathEnd_single]

theorem reachable_trans (g : WeightedGraph T) {a b c : T}
    (h1 : Reachable g a b) (h2 : Reachable g b c) : Reachable g a c := by
  induction h2 with
  | refl => exact h1
  | step hr he ih => exact Reachable.step ih he

theorem reachable_of_path (g : WeightedGraph T) (start : T) :
    ∀ es, IsPathList g start es → Reachable g start (pathEnd start es) := by
  intro es
  induction es generalizing start with
  | nil => intro _; exact Reachable.refl
  | cons e es ih =>
    intro hp
    rw [pathEnd_cons]
    exact reachable_trans g (Reachable.step Reachable.refl hp.1) (ih e.2 hp.2)

theorem not_nodup_exists_get_eq {L : List T} (h : ¬ L.Nodup) :
    ∃ i j : Fin L.length, i < j ∧ L.get i = L.get j := by
  rw [List.nodup_iff_injective_get] at h
  rw [Function.not_injective_iff] at h
  obtain ⟨a, b, hab, hne⟩ := h
  rcases lt_trichotomy a b with h1 | h1 | h1
  · exact ⟨a, b, h1, hab⟩
  · exact absurd h1 hne
  · exact ⟨b, a, h1, hab.symm⟩

theorem vtx_eq_nodes_get (start : T) (es : List (Nat × T)) (k : Nat)
    (hk : k < (start :: es.map Prod.snd).length) :
    (start :: es.map Prod.snd).get ⟨k, hk⟩ = vtx start es k := by
  cases k with
  | zero => rfl
  | succ k =>
    have hk' : k < es.length := by simpa using Nat.lt_of_succ_lt_succ hk
    rw [vtx_succ start es k hk']
    show (es.map Prod.snd).get ⟨k, _⟩ = _
    simp

/-- Any path can be shortened (never increasing its cost, with non-negative
weights automatic over `Nat`) to a duplicate-free path with the same
endpoints. -/
theorem exists_nodup_path_le (g : WeightedGraph T) (start : T) :
    ∀ n (es : List (Nat × T)), es.length ≤ n → IsPathList g start es →
      ∃ es', IsPathList g start es' ∧ pathEnd start es' = pathEnd start es ∧
        pathCost es' ≤ pathCost es ∧ (start :: es'.map Prod.snd).Nodup := by
  intro n
  induction n with
  | zero =>
    intro es hlen _
    have : es = [] := List.length_eq_zero.mp (Nat.le_zero.mp hlen)
    subst this
    exact ⟨[], trivial, rfl, Nat.le_refl _, by simp⟩
  | succ n ih =>
    intro es hlen hp
    by_cases hnd : (start :: es.map Prod.snd).Nodup
    · exact ⟨es, hp, rfl, Nat.le_refl _, hnd⟩
    · obtain ⟨i, j, hij, hgeq⟩ := not_nodup_exists_get_eq hnd
      have hjlen : (j : Nat) ≤ es.length := by
        have := j.isLt
        simp at this
        omega
      have hvij : vtx start es i.val = vtx start es j.val := by
        rw [← vtx_eq_nodes_get start es i.val i.isLt,
          ← vtx_eq_nodes_get start es j.val j.isLt]
        exact hgeq
      have hsplitj := (isPathList_append g start (es.take j.val) (es.drop j.val)).mp
        (by rw [List.take_append_drop]; exact hp)
      have hnew : IsPathList g start (es.take i.val ++ es.drop j.val) := by
        refine (isPathList_append g start _ _).mpr ⟨isPathList_take g start es hp _, ?_⟩
        show IsPathList g (vtx start es i.val) _
        rw [hvij]
        exact hsplitj.2
      have hendnew : pathEnd start (es.take i.val ++ es.drop j.val) =
          pathEnd start es := by
        rw [pathEnd_append]
        show pathEnd (vtx start es i.val) _ = _
        rw [hvij]
        conv_rhs => rw [← List.take_append_drop j.val es, pathEnd_append]
        rfl
      have hcostnew : pathCost (es.take i.val ++ es.drop j.val) ≤ pathCost es := by
        rw [pathCost_append]
        conv_rhs => rw [← List.take_append_drop j.val es, pathCost_append]
        have := pfx_mono es (Nat.le_of_lt hij)
        unfold pfx at this
        omega
      have hlennew : (es.take i.val ++ es.drop j.val).length ≤ n := by
        rw [List.length_append, List.length_take, List.length_drop]
        have hi : (i : Nat) < (j : Nat) := hij
        omega
      obtain ⟨es', hp', hend', hcost', hnd'⟩ := ih _ hlennew hnew
      exact ⟨es', hp', by rw [hend', hendnew], Nat.le_trans hcost' hcostnew, hnd'⟩

/-- Every reachable node has a minimal-cost, duplicate-free path. -/
theorem exists_minimal_simple_path (g : WeightedGraph T) (start v : T)
    (h : Reachable g start v) :
    ∃ es, IsPathList g start es ∧ pathEnd start es = v ∧
      (start :: es.map Prod.snd).Nodup ∧
      (∀ es', IsPathList g start es' → pathEnd start es' = v →
        pathCost es ≤ pathCost es') := by
  obtain ⟨es0, hp0, he0⟩ := exists_path_of_reachable g start v h
  have hne : {c | ∃ es, IsPathList g start es ∧ pathEnd start es = v ∧
      pathCost es = c}.Nonempty := ⟨pathCost es0, es0, hp0, he0, rfl⟩
  obtain ⟨es1, hp1, he1, hc1⟩ := Nat.sInf_mem hne
  obtain ⟨es2, hp2, he2, hc2, hnd2⟩ :=
    exists_nodup_path_le g start es1.length es1 (Nat.le_refl _) hp1
  refine ⟨es2, hp2, by rw [he2, he1], hnd2, ?_⟩
  intro es' hp' he'
  have hle : sInf {c | ∃ es, IsPathList g start es ∧ pathEnd start es = v ∧
      pathCost es = c} ≤ pathCost es' := Nat.sInf_le ⟨es', hp', he', rfl⟩
  calc pathCost es2 ≤ pathCost es1 := hc2
    _ ≤ pathCost es' := by rw [hc1]; exact hle

/-! ## Invariants of a `dijkstra_search` run -/

theorem costStep_refl (m : T → Option Nat) : costStep m m :=
  fun v c h => ⟨c, h, Nat.le_refl _⟩

theorem costStep_trans {m1 m2 m3 : T → Option Nat} (h1 : costStep m1 m2)
    (h2 : costStep m2 m3) : costStep m1 m3 := by
  intro v c h
  obtain ⟨c', hc', hle'⟩ := h1 v c h
  obtain ⟨c'', hc'', hle''⟩ := h2 v c' hc'
  exact ⟨c'', hc'', Nat.le_trans hle'' hle'⟩

/-- Case analysis on `relax`: it is either the identity (skip) or the update
form. -/
theorem relax_cases [DecidableEq T] (current : T) (st : DijkstraState T)
    (e : Nat × T) :
    (relax current st e = st ∧
      ∃ c, st.cost_so_far e.2 = some c ∧ c < mapGet st.cost_so_far current + e.1) ∨
    (relax current st e =
      { st with
        cost_so_far := upd st.cost_so_far e.2 (mapGet st.cost_so_far current + e.1)
        came_from := upd st.came_from e.2 current
        frontier := pqPush ⟨e.2, mapGet st.cost_so_far current + e.1⟩ st.frontier } ∧
      (st.cost_so_far e.2 = none ∨
        ∃ c, st.cost_so_far e.2 = some c ∧ mapGet st.cost_so_far current + e.1 ≤ c)) := by
  cases hc : st.cost_so_far e.2 with
  | none =>
    right
    exact ⟨relax_update current st e.1 e.2 (Or.inl hc), Or.inl rfl⟩
  | some c =>
    by_cases hgt : c < mapGet st.cost_so_far current + e.1
    · exact Or.inl ⟨relax_skip current st e.1 e.2 c hc hgt, c, rfl, hgt⟩
    · right
      have hle := Nat.le_of_not_lt hgt
      exact ⟨relax_update current st e.1 e.2 (Or.inr ⟨c, hc, hle⟩),
        Or.inr ⟨c, rfl, hle⟩⟩

theorem relax_costStep [DecidableEq T] (current : T) (st : DijkstraState T)
    (e : Nat × T) : costStep st.cost_so_far (relax current st e).cost_so_far := by
  rcases relax_cases current st e with ⟨heq, -⟩ | ⟨heq, hside⟩
  · rw [heq]
    exact costStep_refl _
  · rw [heq]
    intro v c hv
    by_cases hve : v = e.2
    · subst hve
      rcases hside with hnone | ⟨c0, hc0, hle⟩
      · rw [hnone] at hv
        cases hv
      · rw [hc0] at hv
        cases hv
        exact ⟨_, by simp [upd], hle⟩
    · exact ⟨c, by simpa [upd, hve] using hv, Nat.le_refl _⟩

theorem relax_frontier_mono [DecidableEq T] (current : T) (st : DijkstraState T)
    (e : Nat × T) (f : MinPriorityNode T) (hf : f ∈ st.frontier) :
    f ∈ (relax current st e).frontier := by
  rcases relax_cases current st e with ⟨heq, -⟩ | ⟨heq, -⟩
  · rw [heq]
    exact hf
  · rw [heq]
    exact List.mem_cons_of_mem _ hf

theorem relax_frontier_sub [DecidableEq T] (current : T) (st : DijkstraState T)
    (e : Nat × T) (f : MinPriorityNode T)
    (hf : f ∈ (relax current st e).frontier) :
    f ∈ st.frontier ∨
      (f = ⟨e.2, mapGet st.cost_so_far current + e.1⟩ ∧
        (relax current st e).cost_so_far e.2 =
          some (mapGet st.cost_so_far current + e.1)) := by
  rcases relax_cases current st e with ⟨heq, -⟩ | ⟨heq, -⟩
  · rw [heq] at hf
    exact Or.inl hf
  · rw [heq] at hf ⊢
    rcases List.mem_cons.mp hf with rfl | hf1
    · exact Or.inr ⟨rfl, by simp [upd]⟩
    · exact Or.inl hf1

/-- Recorded costs after a `relax` are either old values or the single fresh
value, which is also pushed. -/
theorem relax_cost_cases [DecidableEq T] (current : T) (st : DijkstraState T)
    (e : Nat × T) (v : T) (c' : Nat)
    (h : (relax current st e).cost_so_far v = some c') :
    st.cost_so_far v = some c' ∨
      (v = e.2 ∧ c' = mapGet st.cost_so_far current + e.1 ∧
        (⟨v, c'⟩ : MinPriorityNode T) ∈ (relax current st e).frontier) := by
  rcases relax_cases current st e with ⟨heq, -⟩ | ⟨heq, -⟩
  · rw [heq] at h
    exact Or.inl h
  · by_cases hve : v = e.2
    · subst hve
      rw [heq] at h
      have hc' : c' = mapGet st.cost_so_far current + e.1 := by
        simpa [upd] using h.symm
      subst hc'
      rw [heq]
      exact Or.inr ⟨rfl, rfl, by simp [pqPush]⟩
    · rw [heq] at h
      exact Or.inl (by simpa [upd, hve] using h)

theorem relax_DWF [DecidableEq T] (current : T) (st : DijkstraState T)
    (e : Nat × T) (h : DWF st) : DWF (relax current st e) := by
  intro f hf
  rcases relax_frontier_sub current st e f hf with hold | ⟨rfl, hrec⟩
  · obtain ⟨c, hc, hle⟩ := h f hold
    obtain ⟨c', hc', hle'⟩ := relax_costStep current st e f.node c hc
    exact ⟨c', hc', Nat.le_trans hle' hle⟩
  · exact ⟨_, hrec, Nat.le_refl _⟩

theorem relax_CostsAch [DecidableEq T] (g : WeightedGraph T) (start : T)
    (current : T) (st : DijkstraState T) (e : Nat × T)
    (he : e ∈ g.neighbours current)
    (hcur : ∃ c0, st.cost_so_far current = some c0)
    (h : CostsAch g start st) : CostsAch g start (relax current st e) := by
  intro v c hv
  rcases relax_cost_cases current st e v c hv with hold | ⟨rfl, rfl, -⟩
  · exact h v c hold
  · obtain ⟨c0, hc0⟩ := hcur
    obtain ⟨es0, hp0, hend0, hcost0⟩ := h current c0 hc0
    refine ⟨es0 ++ [e], ?_, ?_, ?_⟩
    · refine (isPathList_append g start es0 [e]).mpr ⟨hp0, ?_⟩
      rw [hend0]
      exact ⟨he, trivial⟩
    · rw [pathEnd_append, pathEnd_single]
    · rw [pathCost_append, mapGet, hc0]
      simpa [pathCost] using hcost0

/-! ### The frontier-reaches-the-path invariant (for the cost guarantee)

Fix a duplicate-free path `es` from `start`.  `Qp i` says the `i`-th path
node is recorded at a cost within the path's prefix cost; `Rp i` says the
frontier holds an entry for it within the prefix cost.  `INVd` says either
the endpoint is already settled within the path cost, or some strict prefix
is, with a live frontier entry at its tip and nothing settled beyond it. -/

theorem vtx_inj (start : T) (es : List (Nat × T))
    (hnd : (start :: es.map Prod.snd).Nodup) {i j : Nat}
    (hi : i ≤ es.length) (hj : j ≤ es.length)
    (h : vtx start es i = vtx start es j) : i = j := by
  have hinj := List.nodup_iff_injective_get.mp hnd
  have hi' : i < (start :: es.map Prod.snd).length := by simp; omega
  have hj' : j < (start :: es.map Prod.snd).length := by simp; omega
  rw [← vtx_eq_nodes_get start es i hi', ← vtx_eq_nodes_get start es j hj'] at h
  have := hinj h
  exact congrArg Fin.val this

theorem Qp_mono (start : T) (es : List (Nat × T)) {st st' : DijkstraState T}
    (hc : costStep st.cost_so_far st'.cost_so_far) {i : Nat}
    (h : Qp start es st i) : Qp start es st' i := by
  obtain ⟨c, hcv, hle⟩ := h
  obtain ⟨c', hc', hle'⟩ := hc _ c hcv
  exact ⟨c', hc', Nat.le_trans hle' hle⟩

/-- A path index newly settled by a `relax` is the relaxed node, and gets a
live frontier entry at its new cost. -/
theorem relax_newQ [DecidableEq T] (start : T) (es : List (Nat × T))
    (current : T) (st : DijkstraState T) (e : Nat × T) (i : Nat)
    (hq' : Qp start es (relax current st e) i) (hq : ¬ Qp start es st i) :
    vtx start es i = e.2 ∧ Rp start es (relax current st e) i := by
  obtain ⟨c', hc', hle'⟩ := hq'
  rcases relax_cost_cases current st e (vtx start es i) c' hc' with hold | ⟨hv, hval, hmem⟩
  · exact absurd ⟨c', hold, hle'⟩ hq
  · exact ⟨hv, ⟨vtx start es i, c'⟩, hmem, rfl, hle'⟩

/-- If everything beyond `j` was unsettled and a `relax` settles some index
above `j`, the invariant holds with that index as the new witness. -/
theorem INVd_of_relax_newQ [DecidableEq T] (start : T) (es : List (Nat × T))
    (hnd : (start :: es.map Prod.snd).Nodup) (current : T)
    (st : DijkstraState T) (e : Nat × T) (j : Nat)
    (hmax : ∀ i, j < i → i ≤ es.length → ¬ Qp start es st i)
    (i : Nat) (hji : j < i) (him : i ≤ es.length)
    (hQ'i : Qp start es (relax current st e) i) :
    INVd start es (relax current st e) := by
  have hni := hmax i hji him
  obtain ⟨hvi, hRi⟩ := relax_newQ start es current st e i hQ'i hni
  by_cases him' : i = es.length
  · left
    rwa [him'] at hQ'i
  · right
    refine ⟨i, Nat.lt_of_le_of_ne him him', hQ'i, hRi, ?_⟩
    intro i'' hi'' him'' hQ''
    by_cases hQold : Qp start es st i''
    · exact hmax i'' (Nat.lt_trans hji hi'') him'' hQold
    · obtain ⟨hvi'', -⟩ := relax_newQ start es current st e i'' hQ'' hQold
      have : i'' = i := vtx_inj start es hnd him'' him (hvi''.trans hvi.symm)
      omega

/-- One `relax` preserves `INVd`. -/
theorem relax_INVd [DecidableEq T] (start : T) (es : List (Nat × T))
    (hnd : (start :: es.map Prod.snd).Nodup) (current : T)
    (st : DijkstraState T) (e : Nat × T) (h : INVd start es st) :
    INVd start es (relax current st e) := by
  rcases h with hm | ⟨j, hjlt, hQj, hRj, hmax⟩
  · exact Or.inl (Qp_mono start es (relax_costStep current st e) hm)
  · by_cases hnew : ∃ i, j < i ∧ i ≤ es.length ∧ Qp start es (relax current st e) i
    · obtain ⟨i, hji, him, hQ'i⟩ := hnew
      exact INVd_of_relax_newQ start es hnd current st e j hmax i hji him hQ'i
    · right
      push_neg at hnew
      refine ⟨j, hjlt, Qp_mono start es (relax_costStep current st e) hQj, ?_, ?_⟩
      · obtain ⟨f, hf, hfn, hfc⟩ := hRj
        exact ⟨f, relax_frontier_mono current st e f hf, hfn, hfc⟩
      · intro i hi him
        exact hnew i hi him

/-- Folding `relax current` over any list preserves `INVd`. -/
theorem fold_INVd_of_INVd [DecidableEq T] (start : T) (es : List (Nat × T))
    (hnd : (start :: es.map Prod.snd).Nodup) (current : T) :
    ∀ l : List (Nat × T), ∀ st : DijkstraState T, INVd start es st →
      INVd start es (l.foldl (relax current) st) := by
  intro l
  induction l with
  | nil => intro st h; exact h
  | cons e l ih =>
    intro st h
    rw [List.foldl_cons]
    exact ih _ (relax_INVd start es hnd current st e h)

/-- Folding `relax current` over a neighbour list restores `INVd` when the
pending path edge out of `current = vtx j` is in the list. -/
theorem fold_INVd_pending [DecidableEq T] (start : T)
    (es : List (Nat × T)) (hnd : (start :: es.map Prod.snd).Nodup)
    (j : Nat) (hj : j < es.length) (current : T)
    (hcur : current = vtx start es j) :
    ∀ l : List (Nat × T), ∀ st : DijkstraState T,
      (es.get ⟨j, hj⟩ ∈ l ∧ Qp start es st j ∧
          ∀ i, j < i → i ≤ es.length → ¬ Qp start es st i) →
      INVd start es (l.foldl (relax current) st) := by
  intro l
  induction l with
  | nil =>
    intro st h
    cases h.1
  | cons e l ih =>
    intro st h
    obtain ⟨hmem, hQj, hmax⟩ := h
    rw [List.foldl_cons]
    by_cases hee : e = es.get ⟨j, hj⟩
    · apply fold_INVd_of_INVd start es hnd current
      subst hee
      obtain ⟨cj, hcj, hcjle⟩ := hQj
      rw [← hcur] at hcj
      have hmg : mapGet st.cost_so_far current = cj := by
        rw [mapGet, hcj]
        rfl
      have hcand : mapGet st.cost_so_far current + (es.get ⟨j, hj⟩).1 ≤
          pfx es (j + 1) := by
        rw [hmg, pfx_succ es j hj]
        omega
      have hv2 : (es.get ⟨j, hj⟩).2 = vtx start es (j + 1) :=
        (vtx_succ start es j hj).symm
      rcases relax_cases current st (es.get ⟨j, hj⟩) with
        ⟨heq, c0, hc0, hgt⟩ | ⟨heq, -⟩
      · exfalso
        apply hmax (j + 1) (by omega) (by omega)
        refine ⟨c0, ?_, by omega⟩
        rw [← hv2]
        exact hc0
      · apply INVd_of_relax_newQ start es hnd current st (es.get ⟨j, hj⟩) j
          hmax (j + 1) (by omega) (by omega)
        refine ⟨mapGet st.cost_so_far current + (es.get ⟨j, hj⟩).1, ?_, hcand⟩
        rw [heq, ← hv2]
        simp [upd]
    · have hmem' : es.get ⟨j, hj⟩ ∈ l := by
        rcases List.mem_cons.mp hmem with h1 | h1
        · exact absurd h1.symm hee
        · exact h1
      by_cases hnew : ∃ i, j < i ∧ i ≤ es.length ∧
          Qp start es (relax current st e) i
      · obtain ⟨i, hji, him, hQ'i⟩ := hnew
        exact fold_INVd_of_INVd start es hnd current l _
          (INVd_of_relax_newQ start es hnd current st e j hmax i hji him hQ'i)
      · push_neg at hnew
        exact ih _ ⟨hmem', Qp_mono start es (relax_costStep current st e) hQj,
          fun i hi him => hnew i hi him⟩

theorem relax_flag_order [DecidableEq T] (current : T) (st : DijkstraState T)
    (e : Nat × T) :
    (relax current st e).goalReached = st.goalReached ∧
    (relax current st e).order = st.order := by
  rcases relax_cases current st e with ⟨heq, -⟩ | ⟨heq, -⟩ <;> rw [heq] <;> exact ⟨rfl, rfl⟩

/-- The three shapes one loop iteration can take. -/
theorem dijkstraStep_empty [DecidableEq T] (g : WeightedGraph T) (goal : T)
    (st : DijkstraState T) (hpop : pqPop st.frontier = none) :
    dijkstraStep g goal st = .done st := by
  simp [dijkstraStep, hpop]

theorem dijkstraStep_pop_done [DecidableEq T] (g : WeightedGraph T) (goal : T)
    (st : DijkstraState T) (e0 : MinPriorityNode T)
    (rest : List (MinPriorityNode T))
    (hpop : pqPop st.frontier = some (e0, rest)) (hg : goal = e0.node) :
    dijkstraStep g goal st =
      .done { st with
              frontier := rest
              order := st.order ++ [e0.node]
              goalReached := true } := by
  simp [dijkstraStep, hpop, hg]

theorem dijkstraStep_pop_next [DecidableEq T] (g : WeightedGraph T) (goal : T)
    (st : DijkstraState T) (e0 : MinPriorityNode T)
    (rest : List (MinPriorityNode T))
    (hpop : pqPop st.frontier = some (e0, rest)) (hg : goal ≠ e0.node) :
    dijkstraStep g goal st =
      .next ((g.neighbours e0.node).foldl (relax e0.node)
        { st with frontier := rest, order := st.order ++ [e0.node] }) := by
  simp [dijkstraStep, hpop, hg]

/-- Bulk preservation through the neighbour fold: well-formedness,
`cost_so_far[start] = 0`, achievability, downward cost refinement, the
frontier only growing, and the current node staying recorded. -/
theorem fold_pres [DecidableEq T] (g : WeightedGraph T) (start current : T) :
    ∀ l : List (Nat × T), (∀ e ∈ l, e ∈ g.neighbours current) →
      ∀ st : DijkstraState T, DWF st → CostsAch g start st →
        (∃ c0, st.cost_so_far current = some c0) →
        st.cost_so_far start = some 0 →
        DWF (l.foldl (relax current) st) ∧
        CostsAch g start (l.foldl (relax current) st) ∧
        (l.foldl (relax current) st).cost_so_far start = some 0 ∧
        costStep st.cost_so_far (l.foldl (relax current) st).cost_so_far ∧
        (l.foldl (relax current) st).goalReached = st.goalReached ∧
        (∀ f ∈ st.frontier, f ∈ (l.foldl (relax current) st).frontier) := by
  intro l
  induction l with
  | nil =>
    intro _ st h1 h2 _ h4
    exact ⟨h1, h2, h4, costStep_refl _, rfl, fun f hf => hf⟩
  | cons e l ih =>
    intro hl st h1 h2 h3 h4
    have he := hl e (by simp)
    have hstep1 := relax_DWF current st e h1
    have hstep2 := relax_CostsAch g start current st e he h3 h2
    have hcs := relax_costStep current st e
    have h3' : ∃ c0, (relax current st e).cost_so_far current = some c0 := by
      obtain ⟨c0, hc0⟩ := h3
      obtain ⟨c', hc', -⟩ := hcs current c0 hc0
      exact ⟨c', hc'⟩
    have h4' : (relax current st e).cost_so_far start = some 0 := by
      obtain ⟨c', hc', hle'⟩ := hcs start 0 h4
      rwa [Nat.le_zero.mp hle'] at hc'
    have hrec := ih (fun f hf => hl f (List.mem_cons_of_mem _ hf))
      (relax current st e) hstep1 hstep2 h3' h4'
    obtain ⟨r1, r2, r3, r4, r5, r6⟩ := hrec
    rw [List.foldl_cons]
    refine ⟨r1, r2, r3, costStep_trans hcs r4, ?_, ?_⟩
    · rw [r5, (relax_flag_order current st e).1]
    · intro f hf
      exact r6 f (relax_frontier_mono current st e f hf)

/-- A `.next` step preserves the working invariants. -/
theorem dijkstraStep_next_pres [DecidableEq T] (g : WeightedGraph T)
    (goal start : T) (st st' : DijkstraState T)
    (hstep : dijkstraStep g goal st = .next st')
    (h1 : DWF st) (h2 : CostsAch g start st)
    (h4 : st.cost_so_far start = some 0) (h5 : st.goalReached = false) :
    DWF st' ∧ CostsAch g start st' ∧ st'.cost_so_far start = some 0 ∧
      st'.goalReached = false ∧ costStep st.cost_so_far st'.cost_so_far := by
  cases hpop : pqPop st.frontier with
  | none =>
    rw [dijkstraStep_empty g goal st hpop] at hstep
    cases hstep
  | some pr =>
    obtain ⟨e0, rest⟩ := pr
    by_cases hg : goal = e0.node
    · rw [dijkstraStep_pop_done g goal st e0 rest hpop hg] at hstep
      cases hstep
    · rw [dijkstraStep_pop_next g goal st e0 rest hpop hg] at hstep
      have hfold := fold_pres g start e0.node (g.neighbours e0.node)
        (fun f hf => hf)
        { st with frontier := rest, order := st.order ++ [e0.node] }
        ?_ ?_ ?_ ?_
      · cases hstep
        obtain ⟨r1, r2, r3, r4, r5, -⟩ := hfold
        exact ⟨r1, r2, r3, by rw [r5]; exact h5, r4⟩
      · intro f hf
        have hfm : f ∈ st.frontier := (pqPop_perm hpop).mem_iff.mpr
          (List.mem_cons_of_mem _ hf)
        exact h1 f hfm
      · exact h2
      · have he0 : e0 ∈ st.frontier := (pqPop_perm hpop).mem_iff.mpr (by simp)
        obtain ⟨c, hc, -⟩ := h1 e0 he0
        exact ⟨c, hc⟩
      · exact h4

/-- A `.next` step preserves `INVd`. -/
theorem dijkstraStep_next_INVd [DecidableEq T] (g : WeightedGraph T)
    (goal start : T) (es : List (Nat × T))
    (hnd : (start :: es.map Prod.snd).Nodup)
    (hpath : IsPathList g start es)
    (st st' : DijkstraState T) (hstep : dijkstraStep g goal st = .next st')
    (h : INVd start es st) : INVd start es st' := by
  cases hpop : pqPop st.frontier with
  | none =>
    rw [dijkstraStep_empty g goal st hpop] at hstep
    cases hstep
  | some pr =>
    obtain ⟨e0, rest⟩ := pr
    by_cases hg : goal = e0.node
    · rw [dijkstraStep_pop_done g goal st e0 rest hpop hg] at hstep
      cases hstep
    · rw [dijkstraStep_pop_next g goal st e0 rest hpop hg] at hstep
      cases hstep
      rcases h with hm | ⟨j, hjlt, hQj, hRj, hmax⟩
      · exact fold_INVd_of_INVd start es hnd e0.node _ _ (Or.inl hm)
      · by_cases hsurv : ∃ f' ∈ rest, f'.node = vtx start es j ∧
            f'.cost ≤ pfx es j
        · obtain ⟨f', hf', hfn', hfc'⟩ := hsurv
          exact fold_INVd_of_INVd start es hnd e0.node _ _
            (Or.inr ⟨j, hjlt, hQj, ⟨f', hf', hfn', hfc'⟩, hmax⟩)
        · obtain ⟨f, hf, hfn, hfc⟩ := hRj
          rcases List.mem_cons.mp ((pqPop_perm hpop).mem_iff.mp hf) with rfl | hfr
          · apply fold_INVd_pending start es hnd j hjlt f.node hfn
            refine ⟨?_, hQj, hmax⟩
            rw [hfn]
            exact isPathList_get_mem g start es hpath j hjlt
          · exact absurd ⟨f, hfr, hfn, hfc⟩ hsurv

/-- When the loop breaks on popping the goal, the recorded goal cost is
within the fixed path's cost. -/
theorem dijkstraStep_done_goal_cost [DecidableEq T] (g : WeightedGraph T)
    (goal start : T) (es : List (Nat × T)) (hend : pathEnd start es = goal)
    (st r : DijkstraState T) (hwf : DWF st) (hinv : INVd start es st)
    (hstep : dijkstraStep g goal st = .done r) (hflag : st.goalReached = false)
    (hgr : r.goalReached = true) :
    ∃ c, r.cost_so_far goal = some c ∧ c ≤ pathCost es ∧
      r.cost_so_far = st.cost_so_far := by
  cases hpop : pqPop st.frontier with
  | none =>
    rw [dijkstraStep_empty g goal st hpop] at hstep
    cases hstep
    rw [hflag] at hgr
    cases hgr
  | some pr =>
    obtain ⟨e0, rest⟩ := pr
    by_cases hg : goal = e0.node
    · rw [dijkstraStep_pop_done g goal st e0 rest hpop hg] at hstep
      cases hstep
      have he0mem : e0 ∈ st.frontier := (pqPop_perm hpop).mem_iff.mpr (by simp)
      rcases hinv with hm | ⟨j, hjlt, hQj, ⟨f, hf, hfn, hfc⟩, hmax⟩
      · obtain ⟨c, hc, hle⟩ := hm
        refine ⟨c, ?_, ?_, rfl⟩
        · show st.cost_so_far goal = some c
          rw [← hend, ← vtx_full start es]
          exact hc
        · rw [← pfx_full es]
          exact hle
      · obtain ⟨c, hc, hce⟩ := hwf e0 he0mem
        refine ⟨c, ?_, ?_, rfl⟩
        · show st.cost_so_far goal = some c
          rw [hg]
          exact hc
        · have h1 : e0.cost ≤ f.cost := pqPop_min hpop f hf
          have h2 : pfx es j ≤ pfx es es.length := pfx_mono es (Nat.le_of_lt hjlt)
          rw [pfx_full es] at h2
          omega
    · rw [dijkstraStep_pop_next g goal st e0 rest hpop hg] at hstep
      cases hstep

/-- The cost part of the guarantee, along the whole loop. -/
theorem dijkstraLoop_goal_cost [DecidableEq T] (g : WeightedGraph T)
    (goal start : T) (es : List (Nat × T))
    (hnd : (start :: es.map Prod.snd).Nodup) (hpath : IsPathList g start es)
    (hend : pathEnd start es = goal) :
    ∀ fuel (st r : DijkstraState T),
      DWF st → CostsAch g start st → st.cost_so_far start = some 0 →
      st.goalReached = false → INVd start es st →
      dijkstraLoop g goal fuel st = some r → r.goalReached = true →
      ∃ c, r.cost_so_far goal = some c ∧ c ≤ pathCost es ∧
        ∃ p, IsPathList g start p ∧ pathEnd start p = goal ∧ pathCost p ≤ c := by
  intro fuel
  induction fuel with
  | zero =>
    intro st r _ _ _ _ _ hrun _
    cases hrun
  | succ n ih =>
    intro st r h1 h2 h4 h5 hinv hrun hgr
    rw [dijkstraLoop] at hrun
    cases hstep : dijkstraStep g goal st with
    | done r0 =>
      rw [hstep] at hrun
      have hr : r0 = r := Option.some.inj hrun
      subst hr
      obtain ⟨c, hc, hle, hceq⟩ := dijkstraStep_done_goal_cost g goal start es
        hend st r0 h1 hinv hstep h5 hgr
      refine ⟨c, hc, hle, ?_⟩
      have hcst : st.cost_so_far goal = some c := by
        rw [← hceq]
        exact hc
      exact h2 goal c hcst
    | next st' =>
      rw [hstep] at hrun
      obtain ⟨p1, p2, p3, p4, -⟩ :=
        dijkstraStep_next_pres g goal start st st' hstep h1 h2 h4 h5
      have hinv' := dijkstraStep_next_INVd g goal start es hnd hpath st st'
        hstep hinv
      exact ih st' r p1 p2 p3 p4 hinv' hrun hgr

/-! ### The `came_from` chain invariant (for the path guarantee, under
strictly positive weights) -/

theorem relax_ChainInv [DecidableEq T] (g : WeightedGraph T) (start current : T)
    (st : DijkstraState T) (e : Nat × T) (hw : 0 < e.1)
    (he : e ∈ g.neighbours current)
    (hcur : ∃ c0, st.cost_so_far current = some c0)
    (h : ChainInv g start st) : ChainInv g start (relax current st e) := by
  rcases relax_cases current st e with ⟨heq, -⟩ | ⟨heq, hside⟩
  · rw [heq]
    exact h
  · obtain ⟨c0, hc0⟩ := hcur
    have hmg : mapGet st.cost_so_far current = c0 := by
      rw [mapGet, hc0]
      rfl
    have hne : current ≠ e.2 := by
      intro hcontra
      rcases hside with hnone | ⟨cc, hcc, hlecc⟩
      · rw [← hcontra, hc0] at hnone
        cases hnone
      · rw [← hcontra, hc0] at hcc
        cases hcc
        rw [hmg] at hlecc
        omega
    rw [heq]
    intro v c hv hvs
    by_cases hve : v = e.2
    · subst hve
      have hcv : mapGet st.cost_so_far current + e.1 = c := by
        simpa [upd] using hv
      refine ⟨current, e.1, c0, ?_, he, ?_, ?_⟩
      · simp [upd]
      · show upd st.cost_so_far e.2 (mapGet st.cost_so_far current + e.1) current
            = some c0
        simp only [upd]
        rw [if_neg hne]
        exact hc0
      · omega
    · have hv' : st.cost_so_far v = some c := by
        simpa [upd, hve] using hv
      obtain ⟨u, w, c', hcame, hedge, hcostu, hle⟩ := h v c hv' hvs
      have hcame' : upd st.came_from e.2 current v = some u := by
        simp only [upd]
        rw [if_neg hve]
        exact hcame
      by_cases hue : u = e.2
      · rcases hside with hnone | ⟨cc, hcc, hlecc⟩
        · rw [← hue, hcostu] at hnone
          cases hnone
        · have hceq : cc = c' := by
            rw [← hue, hcostu] at hcc
            exact (Option.some.inj hcc).symm
          refine ⟨u, w, mapGet st.cost_so_far current + e.1, hcame', hedge,
            ?_, ?_⟩
          · show upd st.cost_so_far e.2 (mapGet st.cost_so_far current + e.1) u
                = some (mapGet st.cost_so_far current + e.1)
            simp only [upd]
            rw [if_pos hue]
          · omega
      · refine ⟨u, w, c', hcame', hedge, ?_, hle⟩
        show upd st.cost_so_far e.2 (mapGet st.cost_so_far current + e.1) u
            = some c'
        simp only [upd]
        rw [if_neg hue]
        exact hcostu

theorem fold_ChainInv [DecidableEq T] (g : WeightedGraph T) (start current : T)
    (hwAll : ∀ u e, e ∈ g.neighbours u → 0 < e.1) :
    ∀ l : List (Nat × T), (∀ e ∈ l, e ∈ g.neighbours current) →
      ∀ st : DijkstraState T, (∃ c0, st.cost_so_far current = some c0) →
        ChainInv g start st → ChainInv g start (l.foldl (relax current) st) := by
  intro l
  induction l with
  | nil => intro _ st _ h; exact h
  | cons e l ih =>
    intro hl st hcur h
    have he := hl e (by simp)
    rw [List.foldl_cons]
    apply ih (fun f hf => hl f (List.mem_cons_of_mem _ hf))
    · obtain ⟨c0, hc0⟩ := hcur
      obtain ⟨c', hc', -⟩ := relax_costStep current st e current c0 hc0
      exact ⟨c', hc'⟩
    · exact relax_ChainInv g start current st e (hwAll current e he) he hcur h

/-- `ChainInv` (with the working invariants) survives the whole loop. -/
theorem dijkstraLoop_ChainInv [DecidableEq T] (g : WeightedGraph T)
    (goal start : T) (hwAll : ∀ u e, e ∈ g.neighbours u → 0 < e.1) :
    ∀ fuel (st r : DijkstraState T),
      DWF st → CostsAch g start st → st.cost_so_far start = some 0 →
      st.goalReached = false → ChainInv g start st →
      dijkstraLoop g goal fuel st = some r →
      ChainInv g start r ∧ r.cost_so_far start = some 0 := by
  intro fuel
  induction fuel with
  | zero =>
    intro st r _ _ _ _ _ hrun
    cases hrun
  | succ n ih =>
    intro st r h1 h2 h4 h5 hch hrun
    rw [dijkstraLoop] at hrun
    cases hstep : dijkstraStep g goal st with
    | done r0 =>
      rw [hstep] at hrun
      have hr : r0 = r := Option.some.inj hrun
      subst hr
      cases hpop : pqPop st.frontier with
      | none =>
        rw [dijkstraStep_empty g goal st hpop] at hstep
        cases hstep
        exact ⟨hch, h4⟩
      | some pr =>
        obtain ⟨e0, rest⟩ := pr
        by_cases hg : goal = e0.node
        · rw [dijkstraStep_pop_done g goal st e0 rest hpop hg] at hstep
          cases hstep
          exact ⟨hch, h4⟩
        · rw [dijkstraStep_pop_next g goal st e0 rest hpop hg] at hstep
          cases hstep
    | next st' =>
      rw [hstep] at hrun
      obtain ⟨p1, p2, p3, p4, -⟩ :=
        dijkstraStep_next_pres g goal start st st' hstep h1 h2 h4 h5
      have hch' : ChainInv g start st' := by
        cases hpop : pqPop st.frontier with
        | none =>
          rw [dijkstraStep_empty g goal st hpop] at hstep
          cases hstep
        | some pr =>
          obtain ⟨e0, rest⟩ := pr
          by_cases hg : goal = e0.node
          · rw [dijkstraStep_pop_done g goal st e0 rest hpop hg] at hstep
            cases hstep
          · rw [dijkstraStep_pop_next g goal st e0 rest hpop hg] at hstep
            cases hstep
            have he0 : e0 ∈ st.frontier := (pqPop_perm hpop).mem_iff.mpr (by simp)
            obtain ⟨c0, hc0, -⟩ := h1 e0 he0
            exact fold_ChainInv g start e0.node hwAll (g.neighbours e0.node)
              (fun f hf => hf)
              { st with frontier := rest, order := st.order ++ [e0.node] }
              ⟨c0, hc0⟩ hch
      exact ih st' r p1 p2 p3 p4 hch' hrun

theorem FollowsCame_append (came : T → Option T) (s : T)
    (es1 es2 : List (Nat × T)) :
    FollowsCame came s (es1 ++ es2) ↔
      FollowsCame came s es1 ∧ FollowsCame came (pathEnd s es1) es2 := by
  induction es1 generalizing s with
  | nil => simp [FollowsCame, pathEnd_nil]
  | cons e es1 ih =>
    show (came e.2 = some s ∧ FollowsCame came e.2 (es1 ++ es2)) ↔ _
    rw [ih e.2]
    show _ ↔ (came e.2 = some s ∧ FollowsCame came e.2 es1) ∧ _
    rw [pathEnd_cons]
    tauto

/-- From `ChainInv`, every recorded node is reached by a genuine path that
follows the `came_from` pointers back to `start`, within the recorded
cost.  Positivity is baked into `ChainInv`'s strict budget decrease. -/
theorem chain_reaches [DecidableEq T] (g : WeightedGraph T) (start : T)
    (st : DijkstraState T) (hch : ChainInv g start st)
    (hwAll : ∀ u e, e ∈ g.neighbours u → 0 < e.1) :
    ∀ c v, st.cost_so_far v = some c →
      ∃ es, IsPathList g start es ∧ pathEnd start es = v ∧
        FollowsCame st.came_from start es ∧ pathCost es ≤ c := by
  intro c
  induction c using Nat.strong_induction_on with
  | _ c ihc =>
    intro v hv
    by_cases hvs : v = start
    · subst hvs
      exact ⟨[], trivial, rfl, trivial, by simp [pathCost]⟩
    · obtain ⟨u, w, c', hcame, hedge, hcostu, hle⟩ := hch v c hv hvs
      have hwpos : 0 < w := hwAll u (w, v) hedge
      obtain ⟨es', hp', hend', hfc', hcost'⟩ := ihc c' (by omega) u hcostu
      refine ⟨es' ++ [(w, v)], ?_, ?_, ?_, ?_⟩
      · refine (isPathList_append g start es' [(w, v)]).mpr ⟨hp', ?_⟩
        rw [hend']
        exact ⟨hedge, trivial⟩
      · rw [pathEnd_append, pathEnd_single]
      · refine (FollowsCame_append st.came_from start es' [(w, v)]).mpr
          ⟨hfc', ?_⟩
        rw [hend']
        exact ⟨hcame, trivial⟩
      · rw [pathCost_append]
        have : pathCost [(w, v)] = w := by simp [pathCost]
        omega

/-! ## C1: the goal-cost and path guarantee -/

/-- C1 (amended): for any graph (uint weights: non-negativity is inherent)
and reachable goal, when `dijkstra_search` reports "goal reached",
`cost_so_far[goal]` is the minimum achievable path cost from `start`.  If
furthermore every edge weight is strictly positive, following `came_from`
back from `goal` yields a genuine path from `start` to `goal` whose summed
edge weights equal that minimum (with zero-weight edges the `came_from`
chain can enter a cycle and fail to reach `start`, see the
counterexample). -/
theorem dijkstra_goal_cost_minimal_and_positive_path [DecidableEq T]
    (g : WeightedGraph T) (start goal : T) (fuel : Nat) (r : DijkstraState T)
    (hreach : Reachable g start goal)
    (hrun : dijkstra_search g start goal fuel = some r)
    (hgoal : r.goalReached = true) :
    (∃ c, r.cost_so_far goal = some c ∧ IsDistance g start goal c) ∧
    ((∀ u e, e ∈ g.neighbours u → 0 < e.1) →
      ∃ es, IsPathList g start es ∧ pathEnd start es = goal ∧
        FollowsCame r.came_from start es ∧
        some (pathCost es) = r.cost_so_far goal) := by
  obtain ⟨es, hpath, hend, hnd, hmin⟩ :=
    exists_minimal_simple_path g start goal hreach
  have hwf0 : DWF (dijkstraInit start) := by
    intro f hf
    have hf1 : f = ⟨start, 0⟩ := by simpa [dijkstraInit] using hf
    subst hf1
    exact ⟨0, by simp [dijkstraInit, upd], Nat.le_refl _⟩
  have h40 : (dijkstraInit start).cost_so_far start = some 0 := by
    simp [dijkstraInit, upd]
  have hca0 : CostsAch g start (dijkstraInit start) := by
    intro v c hv
    by_cases hvs : v = start
    · subst hvs
      rw [h40] at hv
      cases hv
      exact ⟨[], trivial, rfl, by simp [pathCost]⟩
    · have : (dijkstraInit start).cost_so_far v = none := by
        simp [dijkstraInit, upd, hvs]
      rw [this] at hv
      cases hv
  have h50 : (dijkstraInit start).goalReached = false := rfl
  have hinv0 : INVd start es (dijkstraInit start) := by
    by_cases hlen : es.length = 0
    · left
      rw [hlen]
      exact ⟨0, h40, Nat.le_refl _⟩
    · right
      refine ⟨0, Nat.pos_of_ne_zero hlen, ⟨0, h40, Nat.le_refl _⟩,
        ⟨⟨start, 0⟩, by simp [dijkstraInit], rfl, Nat.le_refl _⟩, ?_⟩
      intro i hi him hQ
      obtain ⟨c, hc, -⟩ := hQ
      by_cases hvi : vtx start es i = start
      · have : i = 0 := vtx_inj start es hnd him (Nat.zero_le _) hvi
        omega
      · have : (dijkstraInit start).cost_so_far (vtx start es i) = none := by
          simp [dijkstraInit, upd, hvi]
        rw [this] at hc
        cases hc
  have hA := dijkstraLoop_goal_cost g goal start es hnd hpath hend fuel
    (dijkstraInit start) r hwf0 hca0 h40 h50 hinv0 hrun hgoal
  obtain ⟨c, hc, hle, p, hp, hpend, hple⟩ := hA
  have hminp : pathCost es ≤ pathCost p := hmin p hp hpend
  have hcp : pathCost p = c := by omega
  constructor
  · refine ⟨c, hc, ⟨p, hp, hpend, hcp⟩, ?_⟩
    intro q hq hqend
    have := hmin q hq hqend
    omega
  · intro hwAll
    have hch0 : ChainInv g start (dijkstraInit start) := by
      intro v c' hv hvs
      have : (dijkstraInit start).cost_so_far v = none := by
        simp [dijkstraInit, upd, hvs]
      rw [this] at hv
      cases hv
    obtain ⟨hchr, -⟩ := dijkstraLoop_ChainInv g goal start hwAll fuel
      (dijkstraInit start) r hwf0 hca0 h40 h50 hch0 hrun
    obtain ⟨es', hp', hend', hfc', hcost'⟩ :=
      chain_reaches g start r hchr hwAll c goal hc
    have hmines' : pathCost es ≤ pathCost es' := hmin es' hp' hend'
    refine ⟨es', hp', hend', hfc', ?_⟩
    rw [hc]
    have : pathCost es' = c := by omega
    rw [this]

/-- C1 (amended, witness): on the unit-weight demonstration graph the run
reaches `d` and the theorem's conclusions hold. -/
theorem dijkstra_goal_cost_minimal_and_positive_path_witness :
    (Reachable demoG N5.a N5.d ∧
      dijkstra_search demoG N5.a N5.d 20 = some rDemo ∧
      rDemo.goalReached = true ∧
      (∀ u e, e ∈ demoG.neighbours u → 0 < e.1)) ∧
    (∃ c, rDemo.cost_so_far N5.d = some c ∧ IsDistance demoG N5.a N5.d c) ∧
    (∃ es, IsPathList demoG N5.a es ∧ pathEnd N5.a es = N5.d ∧
      FollowsCame rDemo.came_from N5.a es ∧
      some (pathCost es) = rDemo.cost_so_far N5.d) := by
  have h1 : Reachable demoG N5.a N5.b :=
    Reachable.step Reachable.refl
      (show ((1 : Nat), N5.b) ∈ demoG.neighbours N5.a by decide)
  have hreach : Reachable demoG N5.a N5.d :=
    Reachable.step h1
      (show ((1 : Nat), N5.d) ∈ demoG.neighbours N5.b by decide)
  have hw : ∀ u e, e ∈ demoG.neighbours u → 0 < e.1 := by decide
  have h := dijkstra_goal_cost_minimal_and_positive_path demoG N5.a N5.d 20
    rDemo hreach rfl rfl
  exact ⟨⟨hreach, rfl, rfl, hw⟩, h.1, h.2 hw⟩

theorem rZig_came_no_reach : ∀ n x, (x = N5.d ∨ x = N5.b ∨ x = N5.c) →
    cameIter rZig.came_from n x ≠ some N5.a := by
  intro n
  induction n with
  | zero =>
    intro x hx h
    have hxa := Option.some.inj h
    rcases hx with rfl | rfl | rfl <;> cases hxa
  | succ n ih =>
    intro x hx h
    rcases hx with rfl | rfl | rfl
    · have hcd : rZig.came_from N5.d = some N5.c := by decide
      simp only [cameIter, hcd] at h
      exact ih N5.c (by tauto) h
    · have hcb : rZig.came_from N5.b = some N5.c := by decide
      simp only [cameIter, hcb] at h
      exact ih N5.c (by tauto) h
    · have hcc : rZig.came_from N5.c = some N5.b := by decide
      simp only [cameIter, hcc] at h
      exact ih N5.b (by tauto) h

/-- C1 (counterexample): on the graph `a→b` (weight 1), `b↔c` (weight 0),
`c→d` (weight 0) — all weights non-negative, goal `d` reachable — the run
reports "goal reached" and `cost_so_far[d] = 1` is indeed minimal, but the
equal-candidate re-relaxation around the zero-weight cycle has rewritten
`came_from` into the cycle `b ↔ c`: following `came_from` from the goal
never reaches `start`, so no `came_from` path backs the reported cost. -/
theorem dijkstra_min_path_claim_fails_cex :
    Reachable gZigzag N5.a N5.d ∧
    dijkstra_search gZigzag N5.a N5.d 20 = some rZig ∧
    rZig.goalReached = true ∧
    rZig.cost_so_far N5.d = some 1 ∧
    ¬ FollowReaches rZig.came_from N5.a N5.d := by
  refine ⟨?_, rfl, rfl, rfl, ?_⟩
  · have h1 : Reachable gZigzag N5.a N5.b :=
      Reachable.step Reachable.refl
        (show ((1 : Nat), N5.b) ∈ gZigzag.neighbours N5.a by decide)
    have h2 : Reachable gZigzag N5.a N5.c :=
      Reachable.step h1
        (show ((0 : Nat), N5.c) ∈ gZigzag.neighbours N5.b by decide)
    exact Reachable.step h2
      (show ((0 : Nat), N5.d) ∈ gZigzag.neighbours N5.c by decide)
  · rintro ⟨n, hn⟩
    exact rZig_came_no_reach n N5.d (Or.inl rfl) hn

/-- C6 (witness): the demonstration graph with `N = [a,b,c,d,e]`. -/
theorem bfs_none_visits_reachable_exactly_once_witness :
    (N5.a ∈ [N5.a, N5.b, N5.c, N5.d, N5.e] ∧
      (∀ u ∈ [N5.a, N5.b, N5.c, N5.d, N5.e],
        ∀ e ∈ demoG.neighbours u, e.2 ∈ [N5.a, N5.b, N5.c, N5.d, N5.e])) ∧
    ∃ r, breadth_first_search demoG N5.a none (2 * 5 + 2) = some r ∧
      r.order.Nodup ∧ (∀ v, v ∈ r.order ↔ Reachable demoG N5.a v) := by
  refine ⟨⟨by decide, by decide⟩, ?_⟩
  exact bfs_none_visits_reachable_exactly_once demoG N5.a
    [N5.a, N5.b, N5.c, N5.d, N5.e] (by decide) (by decide)

/-! ## C3: divergence on zero weights, termination on positive weights -/

theorem map_sum_le_map_sum {α : Type} (l : List α) (f f' : α → Nat)
    (h : ∀ x ∈ l, f x ≤ f' x) : (l.map f).sum ≤ (l.map f').sum := by
  induction l with
  | nil => simp
  | cons a l ih =>
    simp only [List.map_cons, List.sum_cons]
    have h1 := h a (by simp)
    have h2 := ih (fun x hx => h x (List.mem_cons_of_mem _ hx))
    omega

theorem map_sum_eq_pointwise {α : Type} (l : List α) (f f' : α → Nat)
    (h : ∀ x ∈ l, f x ≤ f' x) (heq : (l.map f).sum = (l.map f').sum) :
    ∀ x ∈ l, f x = f' x := by
  induction l with
  | nil =>
    intro x hx
    cases hx
  | cons a l ih =>
    simp only [List.map_cons, List.sum_cons] at heq
    have h1 := h a (by simp)
    have h2 := map_sum_le_map_sum l f f'
      (fun x hx => h x (List.mem_cons_of_mem _ hx))
    intro x hx
    rcases List.mem_cons.mp hx with rfl | hx1
    · omega
    · exact ih (fun y hy => h y (List.mem_cons_of_mem _ hy)) (by omega) x hx1

theorem filter_length_mono {α : Type} (l : List α) (p q : α → Bool)
    (h : ∀ x ∈ l, p x = true → q x = true) :
    (l.filter p).length ≤ (l.filter q).length := by
  induction l with
  | nil => simp
  | cons a l ih =>
    have ih1 := ih (fun x hx => h x (List.mem_cons_of_mem _ hx))
    cases hp : p a
    · cases hq : q a
      · simp only [List.filter_cons, hp, hq, Bool.false_eq_true, if_false]
        exact ih1
      · simp only [List.filter_cons, hp, hq, Bool.false_eq_true, if_false,
          if_true, List.length_cons]
        omega
    · have hq : q a = true := h a (List.mem_cons_self a l) hp
      simp only [List.filter_cons, hp, hq, if_true, List.length_cons]
      omega

theorem filter_flip_length {α : Type} (l : List α) (p q : α → Bool) (x : α)
    (hl : l.Nodup) (hx : x ∈ l) (hp : p x = false) (hq : q x = true)
    (hagree : ∀ y, y ≠ x → p y = q y) :
    (l.filter q).length = (l.filter p).length + 1 := by
  induction l with
  | nil => cases hx
  | cons a l ih =>
    rcases List.mem_cons.mp hx with rfl | hx1
    · have hxl : x ∉ l := (List.nodup_cons.mp hl).1
      have hcong : l.filter p = l.filter q := by
        apply List.filter_congr
        intro y hy
        refine hagree y ?_
        intro hyx
        exact hxl (hyx ▸ hy)
      simp [List.filter_cons, hp, hq, hcong]
    · have hax : a ≠ x := by
        intro h
        subst h
        exact (List.nodup_cons.mp hl).1 hx1
      have hpq : p a = q a := hagree a hax
      have ih1 := ih (List.nodup_cons.mp hl).2 hx1
      cases hpa : p a
      · have hqa : q a = false := by rw [← hpq, hpa]
        simpa [List.filter_cons, hpa, hqa] using ih1
      · have hqa : q a = true := by rw [← hpq, hpa]
        simp [List.filter_cons, hpa, hqa, List.length_cons, ih1]

theorem weight_lt_wBound [DecidableEq T] (g : WeightedGraph T) (N : List T)
    (u : T) (e : Nat × T) (hu : u ∈ N) (he : e ∈ g.neighbours u) :
    e.1 + 1 ≤ wBound g N := by
  have h1 : e.1 ∈ (g.neighbours u).map Prod.fst := List.mem_map_of_mem Prod.fst he
  have h2 : e.1 ≤ ((g.neighbours u).map Prod.fst).sum :=
    List.single_le_sum (fun x _ => Nat.zero_le x) _ h1
  have h3 : ((g.neighbours u).map Prod.fst).sum ∈
      N.dedup.map (fun v => ((g.neighbours v).map Prod.fst).sum) :=
    List.mem_map_of_mem _ (List.mem_dedup.mpr hu)
  have h4 := List.single_le_sum (fun x _ => Nat.zero_le x) _ h3
  unfold wBound
  omega

theorem deg_lt_degBound [DecidableEq T] (g : WeightedGraph T) (N : List T)
    (u : T) (hu : u ∈ N) :
    (g.neighbours u).length + 1 ≤ degBound g N := by
  have h3 : (g.neighbours u).length ∈
      N.dedup.map (fun v => (g.neighbours v).length) :=
    List.mem_map_of_mem _ (List.mem_dedup.mpr hu)
  have h4 := List.single_le_sum (fun x _ => Nat.zero_le x) _ h3
  unfold degBound
  omega

theorem degBound_pos [DecidableEq T] (g : WeightedGraph T) (N : List T) :
    0 < degBound g N := by
  unfold degBound
  omega

theorem recCount_le [DecidableEq T] (N : List T) (st : DijkstraState T) :
    recCount N st ≤ N.dedup.length := by
  unfold recCount
  exact List.length_filter_le _ _

theorem records_le_costBound [DecidableEq T] (g : WeightedGraph T) (N : List T)
    (st : DijkstraState T) (h : TermInv g N st) :
    ∀ v c, st.cost_so_far v = some c → c ≤ costBound g N := by
  intro v c hv
  have h1 := h.2.2.2 v c hv
  have h3 : recCount N st * wBound g N ≤ N.dedup.length * wBound g N :=
    Nat.mul_le_mul_right _ (recCount_le N st)
  unfold costBound
  omega

theorem fold_costStep [DecidableEq T] (current : T) :
    ∀ (l : List (Nat × T)) (st : DijkstraState T),
      costStep st.cost_so_far ((l.foldl (relax current) st).cost_so_far) := by
  intro l
  induction l with
  | nil =>
    intro st
    exact costStep_refl _
  | cons e l ih =>
    intro st
    rw [List.foldl_cons]
    exact costStep_trans (relax_costStep current st e) (ih (relax current st e))

theorem costStep_sandwich {m1 m2 m3 : T → Option Nat} (h1 : costStep m1 m2)
    (h2 : costStep m2 m3) (heq : ∀ v, m3 v = m1 v) : ∀ v, m2 v = m1 v := by
  intro v
  cases hv : m1 v with
  | none =>
    cases hv2 : m2 v with
    | none => rfl
    | some c2 =>
      obtain ⟨c3, hc3, -⟩ := h2 v c2 hv2
      rw [heq v, hv] at hc3
      cases hc3
  | some c1 =>
    obtain ⟨c2, hc2, hle2⟩ := h1 v c1 hv
    obtain ⟨c3, hc3, hle3⟩ := h2 v c2 hc2
    rw [heq v, hv] at hc3
    have hc31 := Option.some.inj hc3
    rw [hc2]
    congr 1
    omega

theorem relax_TermInv [DecidableEq T] (g : WeightedGraph T) (N : List T)
    (current : T) (st : DijkstraState T) (e : Nat × T)
    (hcur : current ∈ N) (he : e ∈ g.neighbours current) (he2 : e.2 ∈ N)
    (h : TermInv g N st) :
    TermInv g N (relax current st e) ∧
      recCount N st ≤ recCount N (relax current st e) := by
  obtain ⟨hFN, hDWF, hREC, hRB⟩ := h
  rcases relax_cases current st e with ⟨heq, -⟩ | ⟨heq, hside⟩
  · rw [heq]
    exact ⟨⟨hFN, hDWF, hREC, hRB⟩, Nat.le_refl _⟩
  · have hcandle : mapGet st.cost_so_far current + e.1 ≤
        recCount N st * wBound g N + e.1 := by
      unfold mapGet
      cases hc0 : st.cost_so_far current with
      | none => simp
      | some c0 => simpa using Nat.add_le_add_right (hRB current c0 hc0) e.1
    have hw := weight_lt_wBound g N current e hcur he
    have hcost2 : (relax current st e).cost_so_far e.2 =
        some (mapGet st.cost_so_far current + e.1) := by
      rw [heq]
      simp [upd]
    have hcosto : ∀ v, v ≠ e.2 →
        (relax current st e).cost_so_far v = st.cost_so_far v := by
      intro v hv
      rw [heq]
      simp [upd, hv]
    have hfro : (relax current st e).frontier =
        (⟨e.2, mapGet st.cost_so_far current + e.1⟩ : MinPriorityNode T) ::
          st.frontier := by
      rw [heq]
      rfl
    have hFN' : ∀ f ∈ (relax current st e).frontier, f.node ∈ N := by
      intro f hf
      rw [hfro] at hf
      rcases List.mem_cons.mp hf with rfl | hf1
      · exact he2
      · exact hFN f hf1
    have hREC' : ∀ v c, (relax current st e).cost_so_far v = some c → v ∈ N := by
      intro v c hv
      rcases relax_cost_cases current st e v c hv with hold | ⟨rfl, -, -⟩
      · exact hREC v c hold
      · exact he2
    rcases hside with hnone | ⟨c0, hc0, hle0⟩
    · have hcount : recCount N (relax current st e) = recCount N st + 1 := by
        unfold recCount
        apply filter_flip_length N.dedup _ _ e.2 (List.nodup_dedup N)
          (List.mem_dedup.mpr he2)
        · simp [hnone]
        · simp [hcost2]
        · intro y hy
          simp [hcosto y hy]
      refine ⟨⟨hFN', relax_DWF current st e hDWF, hREC', ?_⟩, by omega⟩
      intro v c hv
      rcases relax_cost_cases current st e v c hv with hold | ⟨rfl, rfl, -⟩
      · have h1 := hRB v c hold
        have h2 : recCount N st * wBound g N ≤
            recCount N (relax current st e) * wBound g N := by
          rw [hcount, Nat.succ_mul]
          omega
        omega
      · rw [hcount, Nat.succ_mul]
        omega
    · have hcount : recCount N (relax current st e) = recCount N st := by
        unfold recCount
        congr 1
        apply List.filter_congr
        intro y hy
        by_cases hye : y = e.2
        · subst hye
          simp [hcost2, hc0]
        · rw [hcosto y hye]
      refine ⟨⟨hFN', relax_DWF current st e hDWF, hREC', ?_⟩, by omega⟩
      intro v c hv
      rcases relax_cost_cases current st e v c hv with hold | ⟨rfl, rfl, -⟩
      · rw [hcount]
        exact hRB v c hold
      · rw [hcount]
        have h1 := hRB e.2 c0 hc0
        omega

theorem fold_TermInv [DecidableEq T] (g : WeightedGraph T) (N : List T)
    (current : T) (hcur : current ∈ N)
    (hclosed : ∀ e ∈ g.neighbours current, e.2 ∈ N) :
    ∀ (es : List (Nat × T)) (s : DijkstraState T),
      (∀ e ∈ es, e ∈ g.neighbours current) →
      TermInv g N s →
      TermInv g N (es.foldl (relax current) s) := by
  intro es
  induction es with
  | nil =>
    intro s _ hs
    exact hs
  | cons e es ih =>
    intro s hmem hs
    rw [List.foldl_cons]
    have he := hmem e (by simp)
    exact ih (relax current s e)
      (fun f hf => hmem f (List.mem_cons_of_mem _ hf))
      (relax_TermInv g N current s e hcur he (hclosed e he) hs).1

theorem getD_mono_of_costStep {m m' : T → Option Nat} (B : Nat)
    (hcs : costStep m m') (hb : ∀ v c, m' v = some c → c ≤ B) :
    ∀ v, (m' v).getD (B + 1) ≤ (m v).getD (B + 1) := by
  intro v
  cases hv : m v with
  | none =>
    cases hv' : m' v with
    | none => simp
    | some c' =>
      have := hb v c' hv'
      simp
      omega
  | some c =>
    obtain ⟨c', hc', hle⟩ := hcs v c hv
    rw [hc']
    simpa using hle

theorem DD_le_of_costStep [DecidableEq T] (g : WeightedGraph T) (N : List T)
    (st st' : DijkstraState T)
    (hcs : costStep st.cost_so_far st'.cost_so_far)
    (hb : ∀ v c, st'.cost_so_far v = some c → c ≤ costBound g N) :
    DD g N st' ≤ DD g N st := by
  unfold DD
  exact map_sum_le_map_sum N.dedup _ _
    (fun v _ => getD_mono_of_costStep (costBound g N) hcs hb v)

theorem cost_eq_of_DD_eq [DecidableEq T] (g : WeightedGraph T) (N : List T)
    (st st' : DijkstraState T)
    (hcs : costStep st.cost_so_far st'.cost_so_far)
    (hb : ∀ v c, st.cost_so_far v = some c → c ≤ costBound g N)
    (hb' : ∀ v c, st'.cost_so_far v = some c → c ≤ costBound g N)
    (hrec : ∀ v c, st.cost_so_far v = some c → v ∈ N)
    (hrec' : ∀ v c, st'.cost_so_far v = some c → v ∈ N)
    (hdd : DD g N st' = DD g N st) :
    ∀ v, st'.cost_so_far v = st.cost_so_far v := by
  have hpt : ∀ v ∈ N.dedup,
      (st'.cost_so_far v).getD (costBound g N + 1) =
        (st.cost_so_far v).getD (costBound g N + 1) :=
    map_sum_eq_pointwise N.dedup _ _
      (fun v _ => getD_mono_of_costStep (costBound g N) hcs hb' v) hdd
  intro v
  by_cases hvN : v ∈ N
  · have h1 := hpt v (List.mem_dedup.mpr hvN)
    cases hv : st.cost_so_far v with
    | none =>
      cases hv' : st'.cost_so_far v with
      | none => rfl
      | some c' =>
        have hc' := hb' v c' hv'
        rw [hv, hv'] at h1
        simp at h1
        omega
    | some c =>
      obtain ⟨c', hc', hle⟩ := hcs v c hv
      rw [hv, hc'] at h1
      simp at h1
      rw [hc', h1]
  · cases hv : st.cost_so_far v with
    | none =>
      cases hv' : st'.cost_so_far v with
      | none => rfl
      | some c' => exact absurd (hrec' v c' hv') hvN
    | some c => exact absurd (hrec v c hv) hvN

theorem PhiL_congr [DecidableEq T] (g : WeightedGraph T) (N : List T)
    (cost1 cost2 : T → Option Nat) (fr : List (MinPriorityNode T))
    (h : ∀ v, cost1 v = cost2 v) : PhiL g N cost1 fr = PhiL g N cost2 fr := by
  rw [funext h]

theorem PhiL_perm [DecidableEq T] (g : WeightedGraph T) (N : List T)
    (cost : T → Option Nat) {fr1 fr2 : List (MinPriorityNode T)}
    (h : List.Perm fr1 fr2) : PhiL g N cost fr1 = PhiL g N cost fr2 :=
  List.Perm.sum_eq (List.Perm.map _ h)

theorem PhiL_cons [DecidableEq T] (g : WeightedGraph T) (N : List T)
    (cost : T → Option Nat) (f : MinPriorityNode T)
    (fr : List (MinPriorityNode T)) :
    PhiL g N cost (f :: fr) =
      degBound g N ^ (costBound g N - mapGet cost f.node) + PhiL g N cost fr := by
  simp [PhiL]

/-- If a whole neighbour fold leaves the cost map unchanged, every relax that
pushed did so with candidate equal to the existing record, which (with
positive weights) exceeds the expanding node's recorded cost: the potential
of the new frontier entries lives at strictly smaller exponents. -/
theorem fold_phi_of_cost_fixed [DecidableEq T] (g : WeightedGraph T)
    (N : List T) (u : T) (cu : Nat) :
    ∀ (es : List (Nat × T)) (s : DijkstraState T),
      (∀ e ∈ es, e ∈ g.neighbours u) →
      (∀ e ∈ es, 0 < e.1) →
      (∀ v, (es.foldl (relax u) s).cost_so_far v = s.cost_so_far v) →
      (∀ v c, s.cost_so_far v = some c → c ≤ costBound g N) →
      mapGet s.cost_so_far u = cu →
      PhiL g N (es.foldl (relax u) s).cost_so_far
          (es.foldl (relax u) s).frontier =
        PhiL g N s.cost_so_far s.frontier ∨
      (cu + 1 ≤ costBound g N ∧
        PhiL g N (es.foldl (relax u) s).cost_so_far
            (es.foldl (relax u) s).frontier ≤
          PhiL g N s.cost_so_far s.frontier +
            es.length * degBound g N ^ (costBound g N - (cu + 1))) := by
  intro es
  induction es with
  | nil =>
    intro s _ _ _ _ _
    exact Or.inl rfl
  | cons e es ih =>
    intro s hmem hpos hfix hb hcu
    rw [List.foldl_cons] at hfix ⊢
    have hmid : ∀ v, (relax u s e).cost_so_far v = s.cost_so_far v :=
      costStep_sandwich (relax_costStep u s e)
        (fold_costStep u es (relax u s e)) hfix
    rcases relax_cases u s e with ⟨heq, -⟩ | ⟨heq, -⟩
    · rw [heq] at hfix ⊢
      have hres := ih s (fun f hf => hmem f (List.mem_cons_of_mem _ hf))
        (fun f hf => hpos f (List.mem_cons_of_mem _ hf)) hfix hb hcu
      rcases hres with h1 | ⟨h1, h2⟩
      · exact Or.inl h1
      · refine Or.inr ⟨h1, ?_⟩
        rw [List.length_cons, Nat.add_mul, Nat.one_mul]
        omega
    · have hcand_rec : (relax u s e).cost_so_far e.2 =
          some (mapGet s.cost_so_far u + e.1) := by
        rw [heq]
        simp [upd]
      have hs_rec : s.cost_so_far e.2 =
          some (mapGet s.cost_so_far u + e.1) := by
        rw [← hmid e.2]
        exact hcand_rec
      have hcandB : mapGet s.cost_so_far u + e.1 ≤ costBound g N :=
        hb e.2 _ hs_rec
      have hpos1 := hpos e (by simp)
      rw [hcu] at hcand_rec hs_rec hcandB
      have hcuB : cu + 1 ≤ costBound g N := by omega
      have hb1 : ∀ v c, (relax u s e).cost_so_far v = some c →
          c ≤ costBound g N := by
        intro v c hv
        rw [hmid v] at hv
        exact hb v c hv
      have hcu1 : mapGet (relax u s e).cost_so_far u = cu := by
        unfold mapGet
        rw [hmid u]
        exact hcu
      have hres := ih (relax u s e)
        (fun f hf => hmem f (List.mem_cons_of_mem _ hf))
        (fun f hf => hpos f (List.mem_cons_of_mem _ hf))
        (fun v => (hfix v).trans (hmid v).symm) hb1 hcu1
      have hfro : (relax u s e).frontier =
          (⟨e.2, cu + e.1⟩ : MinPriorityNode T) :: s.frontier := by
        rw [heq, hcu]
        rfl
      have hm2 : mapGet s.cost_so_far e.2 = cu + e.1 := by
        unfold mapGet
        rw [hs_rec]
        rfl
      have hPhiL1 : PhiL g N (relax u s e).cost_so_far (relax u s e).frontier =
          degBound g N ^ (costBound g N - (cu + e.1)) +
            PhiL g N s.cost_so_far s.frontier := by
        rw [PhiL_congr g N _ _ _ hmid, hfro, PhiL_cons, hm2]
      have hexp : degBound g N ^ (costBound g N - (cu + e.1)) ≤
          degBound g N ^ (costBound g N - (cu + 1)) :=
        Nat.pow_le_pow_right (degBound_pos g N) (by omega)
      rcases hres with h1 | ⟨-, h2⟩
      · refine Or.inr ⟨hcuB, ?_⟩
        rw [h1, hPhiL1, List.length_cons, Nat.add_mul, Nat.one_mul]
        omega
      · refine Or.inr ⟨hcuB, ?_⟩
        rw [hPhiL1] at h2
        rw [List.length_cons, Nat.add_mul, Nat.one_mul]
        omega

/-- A `.next` step of the loop preserves `TermInv` and strictly decreases the
lexicographic measure `(DD, Phi)`, given positive weights and closure. -/
theorem dijkstraStep_next_measure [DecidableEq T] (g : WeightedGraph T)
    (N : List T) (goal : T) (st st' : DijkstraState T)
    (hclosed : ∀ u ∈ N, ∀ e ∈ g.neighbours u, e.2 ∈ N)
    (hpos : ∀ u ∈ N, ∀ e ∈ g.neighbours u, 0 < e.1)
    (hstep : dijkstraStep g goal st = .next st')
    (hinv : TermInv g N st) :
    TermInv g N st' ∧
      (DD g N st' < DD g N st ∨
        (DD g N st' = DD g N st ∧ Phi g N st' < Phi g N st)) := by
  cases hpop : pqPop st.frontier with
  | none =>
    rw [dijkstraStep_empty g goal st hpop] at hstep
    cases hstep
  | some pr =>
    obtain ⟨e0, rest⟩ := pr
    by_cases hg : goal = e0.node
    · rw [dijkstraStep_pop_done g goal st e0 rest hpop hg] at hstep
      cases hstep
    · rw [dijkstraStep_pop_next g goal st e0 rest hpop hg] at hstep
      cases hstep
      have hperm := pqPop_perm hpop
      have he0mem : e0 ∈ st.frontier := hperm.mem_iff.mpr (by simp)
      have hu : e0.node ∈ N := hinv.1 e0 he0mem
      have hinv1 : TermInv g N
          { st with frontier := rest, order := st.order ++ [e0.node] } := by
        refine ⟨?_, ?_, hinv.2.2.1, hinv.2.2.2⟩
        · intro f hf
          exact hinv.1 f (hperm.mem_iff.mpr (List.mem_cons_of_mem _ hf))
        · intro f hf
          exact hinv.2.1 f (hperm.mem_iff.mpr (List.mem_cons_of_mem _ hf))
      have hinv' := fold_TermInv g N e0.node hu (hclosed e0.node hu)
        (g.neighbours e0.node)
        { st with frontier := rest, order := st.order ++ [e0.node] }
        (fun f hf => hf) hinv1
      have hcs : costStep st.cost_so_far
          ((g.neighbours e0.node).foldl (relax e0.node)
            { st with
              frontier := rest
              order := st.order ++ [e0.node] }).cost_so_far :=
        fold_costStep e0.node (g.neighbours e0.node)
          { st with
            frontier := rest
            order := st.order ++ [e0.node] }
      have hb' := records_le_costBound g N _ hinv'
      have hDDle := DD_le_of_costStep g N st _ hcs hb'
      rcases Nat.lt_or_ge (DD g N ((g.neighbours e0.node).foldl (relax e0.node)
          { st with frontier := rest, order := st.order ++ [e0.node] }))
          (DD g N st) with hlt | hge
      · exact ⟨hinv', Or.inl hlt⟩
      · have hddeq := Nat.le_antisymm hDDle hge
        have hb := records_le_costBound g N st hinv
        have hfix := cost_eq_of_DD_eq g N st _ hcs hb hb'
          hinv.2.2.1 hinv'.2.2.1 hddeq
        have hphi := fold_phi_of_cost_fixed g N e0.node
          (mapGet st.cost_so_far e0.node) (g.neighbours e0.node)
          { st with frontier := rest, order := st.order ++ [e0.node] }
          (fun f hf => hf) (hpos e0.node hu) hfix hb rfl
        have hPhiSt : Phi g N st =
            degBound g N ^ (costBound g N - mapGet st.cost_so_far e0.node) +
              PhiL g N st.cost_so_far rest := by
          unfold Phi
          rw [PhiL_perm g N st.cost_so_far hperm, PhiL_cons]
        refine ⟨hinv', Or.inr ⟨hddeq, ?_⟩⟩
        have hApos : 0 < degBound g N ^
            (costBound g N - mapGet st.cost_so_far e0.node) :=
          Nat.pos_pow_of_pos _ (degBound_pos g N)
        rcases hphi with h1 | ⟨hcuB, h2⟩
        · have h1' : Phi g N ((g.neighbours e0.node).foldl (relax e0.node)
              { st with frontier := rest, order := st.order ++ [e0.node] }) =
              PhiL g N st.cost_so_far rest := h1
          rw [h1', hPhiSt]
          omega
        · have h2' : Phi g N ((g.neighbours e0.node).foldl (relax e0.node)
              { st with frontier := rest, order := st.order ++ [e0.node] }) ≤
              PhiL g N st.cost_so_far rest +
                (g.neighbours e0.node).length * degBound g N ^
                  (costBound g N - (mapGet st.cost_so_far e0.node + 1)) := h2
          have hdeg := deg_lt_degBound g N e0.node hu
          have hYpos : 0 < degBound g N ^
              (costBound g N - (mapGet st.cost_so_far e0.node + 1)) :=
            Nat.pos_pow_of_pos _ (degBound_pos g N)
          have hpow : degBound g N ^
                (costBound g N - (mapGet st.cost_so_far e0.node + 1)) *
                degBound g N =
              degBound g N ^ (costBound g N - mapGet st.cost_so_far e0.node) := by
            rw [← Nat.pow_succ]
            congr 1
            omega
          have hlt2 : (g.neighbours e0.node).length * degBound g N ^
                (costBound g N - (mapGet st.cost_so_far e0.node + 1)) <
              degBound g N ^
                (costBound g N - mapGet st.cost_so_far e0.node) := by
            rw [← hpow, Nat.mul_comm]
            exact (Nat.mul_lt_mul_left hYpos).mpr (by omega)
          rw [hPhiSt]
          omega

theorem dijkstraStep_done_shape [DecidableEq T] (g : WeightedGraph T)
    (goal : T) (st r : DijkstraState T)
    (h : dijkstraStep g goal st = .done r) :
    r.frontier = [] ∨ r.goalReached = true := by
  cases hpop : pqPop st.frontier with
  | none =>
    rw [dijkstraStep_empty g goal st hpop] at h
    injection h with h1
    subst h1
    left
    cases hfr : st.frontier with
    | nil => rfl
    | cons x xs =>
      rw [hfr] at hpop
      simp [pqPop] at hpop
  | some pr =>
    obtain ⟨e0, rest⟩ := pr
    by_cases hg : goal = e0.node
    · rw [dijkstraStep_pop_done g goal st e0 rest hpop hg] at h
      injection h with h1
      subst h1
      right
      rfl
    · rw [dijkstraStep_pop_next g goal st e0 rest hpop hg] at h
      cases h

theorem dijkstraLoop_done_shape [DecidableEq T] (g : WeightedGraph T)
    (goal : T) :
    ∀ (n : Nat) (st r : DijkstraState T),
      dijkstraLoop g goal n st = some r →
      r.frontier = [] ∨ r.goalReached = true := by
  intro n
  induction n with
  | zero =>
    intro st r h
    cases h
  | succ n ih =>
    intro st r h
    rw [dijkstraLoop] at h
    cases hstep : dijkstraStep g goal st with
    | done r0 =>
      rw [hstep] at h
      have h1 : r0 = r := Option.some.inj h
      subst h1
      exact dijkstraStep_done_shape g goal st r0 hstep
    | next st2 =>
      rw [hstep] at h
      exact ih st2 r h

theorem dijkstraLoop_total_of_pos [DecidableEq T] (g : WeightedGraph T)
    (N : List T) (goal : T)
    (hclosed : ∀ u ∈ N, ∀ e ∈ g.neighbours u, e.2 ∈ N)
    (hpos : ∀ u ∈ N, ∀ e ∈ g.neighbours u, 0 < e.1) :
    ∀ (dd ph : Nat) (st : DijkstraState T), DD g N st = dd → Phi g N st = ph →
      TermInv g N st → ∃ n r, dijkstraLoop g goal n st = some r := by
  intro dd
  induction dd using Nat.strong_induction_on with
  | h dd ihd =>
  intro ph
  induction ph using Nat.strong_induction_on with
  | h ph ihp =>
  intro st hdd hph hinv
  cases hstep : dijkstraStep g goal st with
  | done r =>
    refine ⟨1, r, ?_⟩
    rw [dijkstraLoop, hstep]
  | next st' =>
    obtain ⟨hinv', hdec⟩ :=
      dijkstraStep_next_measure g N goal st st' hclosed hpos hstep hinv
    rcases hdec with hlt | ⟨heq, hlt⟩
    · have hlt' : DD g N st' < dd := by
        rw [← hdd]
        exact hlt
      obtain ⟨n, r, hr⟩ := ihd (DD g N st') hlt' (Phi g N st') st' rfl rfl hinv'
      refine ⟨n + 1, r, ?_⟩
      rw [dijkstraLoop, hstep]
      exact hr
    · have hlt' : Phi g N st' < ph := by
        rw [← hph]
        exact hlt
      have heq' : DD g N st' = dd := by
        rw [heq]
        exact hdd
      obtain ⟨n, r, hr⟩ := ihp (Phi g N st') hlt' st' heq' rfl hinv'
      refine ⟨n + 1, r, ?_⟩
      rw [dijkstraLoop, hstep]
      exact hr

/-- C3 (amended): on a finite node set `N` containing `start`, closed under
the neighbour relation, and whose edge weights are all strictly positive,
`dijkstra_search` terminates: some fuel makes the loop end, either because
the frontier has emptied or because the goal was popped.  (With weights that
are merely non-negative the loop can run forever, see the zero-weight-cycle
counterexample.) -/
theorem dijkstra_positive_weights_terminate [DecidableEq T]
    (g : WeightedGraph T) (start goal : T) (N : List T)
    (hstart : start ∈ N)
    (hclosed : ∀ u ∈ N, ∀ e ∈ g.neighbours u, e.2 ∈ N)
    (hpos : ∀ u ∈ N, ∀ e ∈ g.neighbours u, 0 < e.1) :
    ∃ fuel r, dijkstra_search g start goal fuel = some r ∧
      (r.frontier = [] ∨ r.goalReached = true) := by
  have hinv0 : TermInv g N (dijkstraInit start) := by
    refine ⟨?_, ?_, ?_, ?_⟩
    · intro f hf
      have hf1 : f = ⟨start, 0⟩ := by simpa [dijkstraInit] using hf
      rw [hf1]
      exact hstart
    · intro f hf
      have hf1 : f = ⟨start, 0⟩ := by simpa [dijkstraInit] using hf
      subst hf1
      exact ⟨0, by simp [dijkstraInit, upd], Nat.le_refl _⟩
    · intro v c hv
      by_cases hvs : v = start
      · subst hvs
        exact hstart
      · have hnone : (dijkstraInit start).cost_so_far v = none := by
          simp [dijkstraInit, upd, hvs]
        rw [hnone] at hv
        cases hv
    · intro v c hv
      by_cases hvs : v = start
      · rw [hvs] at hv
        have hzero : (dijkstraInit start).cost_so_far start = some 0 := by
          simp [dijkstraInit, upd]
        rw [hzero] at hv
        cases hv
        exact Nat.zero_le _
      · have hnone : (dijkstraInit start).cost_so_far v = none := by
          simp [dijkstraInit, upd, hvs]
        rw [hnone] at hv
        cases hv
  obtain ⟨n, r, hr⟩ := dijkstraLoop_total_of_pos g N goal hclosed hpos
    (DD g N (dijkstraInit start)) (Phi g N (dijkstraInit start))
    (dijkstraInit start) rfl rfl hinv0
  exact ⟨n, r, hr, dijkstraLoop_done_shape g goal n (dijkstraInit start) r hr⟩

/-- C3 (amended, witness): on the demonstration graph — all weights 1, node
set `[a,b,c,d,e]` closed under edges — the search for goal `d` terminates. -/
theorem dijkstra_positive_weights_terminate_witness :
    (N5.a ∈ [N5.a, N5.b, N5.c, N5.d, N5.e] ∧
      (∀ u ∈ [N5.a, N5.b, N5.c, N5.d, N5.e],
        ∀ e ∈ demoG.neighbours u, e.2 ∈ [N5.a, N5.b, N5.c, N5.d, N5.e]) ∧
      (∀ u ∈ [N5.a, N5.b, N5.c, N5.d, N5.e],
        ∀ e ∈ demoG.neighbours u, 0 < e.1)) ∧
    (∃ fuel r, dijkstra_search demoG N5.a N5.d fuel = some r ∧
      (r.frontier = [] ∨ r.goalReached = true)) :=
  ⟨⟨by decide, by decide, by decide⟩,
    dijkstra_positive_weights_terminate demoG N5.a N5.d
      [N5.a, N5.b, N5.c, N5.d, N5.e] (by decide) (by decide) (by decide)⟩

end Pathfinding
